import Mathlib

/-!
Verification of the ChatMyApi request-resolution, execution and
response-ranking pipeline, as a shallow embedding of the Python sources
`backend/api_call_executor.py`, `backend/summarizer.py` and
`backend/ollama_client.py`.

Python dicts are modelled as insertion-ordered association lists with
unique keys; JSON/`Any` values as the inductive `JVal`; floats as `Rat`
(no NaN/Infinity: the claims do not exercise float special values);
`time.time()` as an explicit integer parameter (only the ordering and
differences of timestamps matter to the code under study).
-/

/-- JSON-ish dynamic value (`Any` in the Python sources).  Python treats
`bool` as a subtype of `int`; we keep a separate constructor and mirror the
numeric coercion where the source relies on it. -/
inductive JVal where
  | null : JVal
  | bool : Bool → JVal
  | num : Rat → JVal
  | str : String → JVal
  | arr : List JVal → JVal
  | obj : List (String × JVal) → JVal
  deriving Repr

/-- Keys of an association-list dict, in insertion order. -/
def dictKeys (m : List (String × α)) : List String := m.map Prod.fst

/-- Python `d[k] = v`: replace in place if the key exists, append otherwise. -/
def dictSet : List (String × α) → String → α → List (String × α)
  | [], k, v => [(k, v)]
  | (k', v') :: rest, k, v =>
      if k' = k then (k', v) :: rest else (k', v') :: dictSet rest k v

/-- Python `d.update(e)`: apply `d[k] = v` for each entry of `e` in order. -/
def dictUpdate (m : List (String × α)) (e : List (String × α)) : List (String × α) :=
  e.foldl (fun acc kv => dictSet acc kv.1 kv.2) m

/-- Python `d.setdefault(k, v)`: insert only when the key is absent; a new
key is appended at the end (insertion order). -/
def dictSetdefault (m : List (String × α)) (k : String) (v : α) : List (String × α) :=
  match m.lookup k with
  | some _ => m
  | none => m ++ [(k, v)]

/-- Python `d.pop(k, None)`: drop the entry with this key. -/
def dictPop (m : List (String × α)) (k : String) : List (String × α) :=
  m.filter (fun kv => kv.1 ≠ k)

/-- Python `str.lower()` (ASCII regime: every key/name the code lowers is
ASCII). -/
def pyLower (s : String) : String := String.mk (s.data.map Char.toLower)

/-! ## Data model (`backend/models.py`) -/

/-- `ExampleEndpoint` of `backend/models.py`. -/
structure ExampleEndpoint where
  name : String
  path : String
  method : String
  description : Option String := none
  allowed_query_params : Option (List String) := none
  allowed_body_params : Option (List String) := none
  deriving Repr, DecidableEq

/-- `APIDefinition` of `backend/models.py`. -/
structure APIDefinition where
  name : String
  base_url : String
  auth_type : String := "none"
  auth_key_name : String := "api_key"
  example_endpoints : List ExampleEndpoint := []
  deriving Repr

/-- `APICall` of `backend/models.py`.  `path_params` values pass through
`str(...)` in the source before use; they are modelled as strings. -/
structure APICall where
  endpoint : String
  method : String
  headers : List (String × JVal) := []
  path_params : List (String × String) := []
  query : List (String × JVal) := []
  body : List (String × JVal) := []
  deriving Repr

/-! ## Percent-encoding (`urllib.parse.quote(..., safe="")`)

`quote` percent-encodes every UTF-8 byte of its input except the
unreserved bytes (ASCII letters, digits, `_ . - ~`). -/

/-- UTF-8 bytes of one character, as natural numbers below 256. -/
def utf8Bytes (c : Char) : List Nat :=
  let n := c.toNat
  if n < 0x80 then [n]
  else if n < 0x800 then [0xC0 + n / 64, 0x80 + n % 64]
  else if n < 0x10000 then
    [0xE0 + n / 4096, 0x80 + (n / 64) % 64, 0x80 + n % 64]
  else
    [0xF0 + n / 262144, 0x80 + (n / 4096) % 64, 0x80 + (n / 64) % 64, 0x80 + n % 64]

/-- The bytes `urllib.parse.quote` leaves unencoded (its `always_safe` set,
with `safe=""` adding nothing). -/
def isUnreservedByte (b : Nat) : Bool :=
  (0x41 ≤ b && b ≤ 0x5A) || (0x61 ≤ b && b ≤ 0x7A) || (0x30 ≤ b && b ≤ 0x39) ||
    b = 0x2D || b = 0x2E || b = 0x5F || b = 0x7E

/-- Upper-case hex digit, as used by `quote` for `%XX` escapes. -/
def hexChar (n : Nat) : Char := ("0123456789ABCDEF".data.get? n).getD '0'

/-- One byte of `quote` output: the byte itself when unreserved, `%XX`
otherwise. -/
def quoteByte (b : Nat) : List Char :=
  if isUnreservedByte b then [Char.ofNat b] else ['%', hexChar (b / 16), hexChar (b % 16)]

/-- `urllib.parse.quote(s, safe="")` over a character list. -/
def pyQuote (s : List Char) : List Char :=
  (s.flatMap utf8Bytes).flatMap quoteByte

/-! ## Path-parameter substitution (`_resolve_endpoint`)

`re.sub(r"\x7b([^\x7d]+)\x7d", replace, endpoint)`: at each `{`, the
leftmost-greedy match collects the maximal nonempty run of non-`}`
characters followed by `}`; the run is the parameter name, replaced by the
percent-encoded value; a missing parameter raises HTTP 400 (modelled as
`none`).  An unmatched `{` (no closing `}` with a nonempty name) passes
through verbatim.  Implemented as a one-pass state machine: `acc = none`
scans normally, `acc = some key` collects name characters (reversed). -/
def resolveAux (params : List (String × String)) :
    Option (List Char) → List Char → Option (List Char)
  | none, [] => some []
  | none, c :: rest =>
      if c = '{' then resolveAux params (some []) rest
      else (resolveAux params none rest).map (c :: ·)
  | some acc, [] => some ('{' :: acc.reverse)
  | some acc, c :: rest =>
      if c = '}' then
        match acc with
        | [] => (resolveAux params none rest).map (fun r => '{' :: '}' :: r)
        | _ :: _ =>
            match params.lookup (String.mk acc.reverse) with
            | some v => (resolveAux params none rest).map (pyQuote v.data ++ ·)
            | none => none
      else resolveAux params (some (c :: acc)) rest

/-- `_resolve_endpoint`: substitute templated path parameters (`none` is the
HTTP 400 "Missing path parameter" failure). -/
def resolveEndpoint (params : List (String × String)) (endpoint : String) :
    Option String :=
  (resolveAux params none endpoint.data).map String.mk

/-! ## Path normalization and endpoint matching -/

/-- `urllib.parse.urlsplit(path).path` for the strings this code feeds it:
endpoint paths (which begin with `/` and therefore carry no scheme).  The
fragment and query are cut at the first `#`/`?`; a leading `//` introduces a
netloc that is skipped. -/
def urlsplitPath (l : List Char) : List Char :=
  if l.take 2 = ['/', '/'] then
    ((l.drop 2).dropWhile (fun c => c ≠ '/' && c ≠ '?' && c ≠ '#')).takeWhile
      (fun c => c ≠ '?' && c ≠ '#')
  else l.takeWhile (fun c => c ≠ '?' && c ≠ '#')

/-- Python `s.rstrip("/")`. -/
def rstripSlash (l : List Char) : List Char :=
  (l.reverse.dropWhile (· = '/')).reverse

/-- `_normalize_path`: strip query strings and trailing slashes; empty
result normalizes to `/`. -/
def normalizePath (l : List Char) : List Char :=
  let cleaned := rstripSlash (urlsplitPath l)
  if cleaned = [] then ['/'] else cleaned

/-- One element of the pattern `re.sub(r"\x7b[^/]+\x7d", "[^/]+", example)`
compiles to: a literal character, or the one-or-more-non-slash wildcard.
Literal characters are modelled as matching exactly themselves, which is
faithful for regex-inert characters (the theorems below only instantiate
paths over alphanumerics, `/`, `-` and `_`). -/
inductive PatElem where
  | lit : Char → PatElem
  | star : PatElem
  deriving Repr, DecidableEq

/-- Index of the last `}` in a character list. -/
def lastBraceIdx : List Char → Option Nat
  | [] => none
  | c :: rest =>
      match lastBraceIdx rest with
      | some i => some (i + 1)
      | none => if c = '}' then some 0 else none

/-- Compile the cleaned example path into pattern elements, mirroring the
substitution `re.sub(r"\x7b[^/]+\x7d", "[^/]+", cleaned_example)`: at a `{`,
the leftmost-greedy match runs to the last `}` in the maximal non-`/` run
(at least one character in between); everything it covers becomes one
wildcard.  A `{` with no such `}` stays literal.  `fuel` bounds recursion
(callers pass the input length, which always suffices). -/
def compileAux : Nat → List Char → List PatElem
  | 0, l => l.map PatElem.lit
  | _ + 1, [] => []
  | fuel + 1, c :: rest =>
      if c = '{' then
        let run := rest.takeWhile (· ≠ '/')
        let rest' := rest.dropWhile (· ≠ '/')
        match lastBraceIdx run with
        | some k =>
            if 1 ≤ k then PatElem.star :: compileAux fuel (run.drop (k + 1) ++ rest')
            else PatElem.lit '{' :: compileAux fuel rest
        | none => PatElem.lit '{' :: compileAux fuel rest
      else PatElem.lit c :: compileAux fuel rest

/-- Pattern for a cleaned example path. -/
def compilePattern (l : List Char) : List PatElem := compileAux l.length l

/-- `re.fullmatch` of the compiled pattern against the input: the whole
input must be consumed; the wildcard consumes one or more non-`/`
characters (with backtracking, i.e. existentially). -/
def matchRun : List Char → List PatElem → Bool
  | [], ps => ps.isEmpty
  | _ :: _, [] => false
  | c :: rest, PatElem.lit d :: ps => c = d && matchRun rest ps
  | c :: rest, PatElem.star :: ps =>
      c ≠ '/' && (matchRun rest ps || matchRun rest (PatElem.star :: ps))

/-- `_paths_match`: normalize both paths, compile the example into a
pattern and fullmatch the call path against it. -/
def pathsMatch (callPath examplePath : String) : Bool :=
  matchRun (normalizePath callPath.data) (compilePattern (normalizePath examplePath.data))

/-- `_validate_endpoint`: first example endpoint whose path matches and
whose method equals the call's; `none` is the HTTP 400 "Endpoint or method
not recognized" failure. -/
def validateEndpoint (eps : List ExampleEndpoint) (callEndpoint callMethod : String) :
    Option ExampleEndpoint :=
  eps.find? (fun ep => pathsMatch callEndpoint ep.path && ep.method = callMethod)

/-! ## Parameter filtering, per-API defaults, auth injection -/

/-- `_filter_params`: `if not allowed: return params` keeps everything when
the allow-list is `None` or empty; otherwise drop keys outside it. -/
def filterParams (params : List (String × JVal)) (allowed : Option (List String)) :
    List (String × JVal) :=
  match allowed with
  | none => params
  | some [] => params
  | some l => params.filter (fun kv => kv.1 ∈ l)

/-- Python truthiness of the optional allow-list (`None` and `[]` are
falsy). -/
def truthyAllow : Option (List String) → Bool
  | some (_ :: _) => true
  | _ => false

/-- The allow-list as a plain list (for membership tests). -/
def allowList : Option (List String) → List String
  | some l => l
  | none => []

/-- `_apply_api_defaults`: RestCountries gets a default `fields` selection
when the endpoint allows it and the model omitted it. -/
def applyApiDefaults (apiDef : APIDefinition) (ep : ExampleEndpoint)
    (query : List (String × JVal)) : List (String × JVal) :=
  if pyLower apiDef.name = "restcountries" ∧ truthyAllow ep.allowed_query_params = true ∧
      "fields" ∈ allowList ep.allowed_query_params ∧ (query.lookup "fields").isNone then
    query ++ [("fields", JVal.str "name,capital,region,cca2,cca3")]
  else query

/-- Characters allowed in a URL scheme after the leading letter. -/
def schemeChar (c : Char) : Bool := c.isAlphanum || c = '+' || c = '-' || c = '.'

/-- Strip a `scheme:` from a URL if present (as `urlsplit` does). -/
def dropScheme (l : List Char) : List Char :=
  let pre := l.takeWhile (· ≠ ':')
  match pre with
  | [] => l
  | c :: cs =>
      if c.isAlpha && cs.all schemeChar && pre.length < l.length then
        l.drop (pre.length + 1)
      else l

/-- `urllib.parse.urlsplit(base_url).netloc`. -/
def netlocOf (s : String) : String :=
  let r := dropScheme s.data
  if r.take 2 = ['/', '/'] then
    String.mk ((r.drop 2).takeWhile (fun c => c ≠ '/' && c ≠ '?' && c ≠ '#'))
  else ""

/-- `_apply_auth`: inject credentials per the declared strategy with
`setdefault` semantics.  Errors: `(401, ...)` when a key is required but
missing or empty (`if not api_key`), `(400, ...)` when a RapidAPI base URL
has no host.  Returns the updated (headers, query). -/
def applyAuth (apiDef : APIDefinition) (headers query : List (String × JVal))
    (apiKey : Option String) : Except (Nat × String) (List (String × JVal) × List (String × JVal)) :=
  if apiDef.auth_type = "none" then .ok (headers, query)
  else
    match apiKey with
    | none => .error (401, "API key not configured for this API")
    | some key =>
        if key = "" then .error (401, "API key not configured for this API")
        else if apiDef.auth_type = "header" then
          .ok (dictSetdefault headers "Authorization" (JVal.str ("Bearer " ++ key)), query)
        else if apiDef.auth_type = "query" then
          .ok (headers, dictSetdefault query apiDef.auth_key_name (JVal.str key))
        else if apiDef.auth_type = "rapidapi" then
          let host := netlocOf apiDef.base_url
          if host = "" then .error (400, "RapidAPI base_url is missing a host")
          else
            .ok (dictSetdefault (dictSetdefault headers "X-RapidAPI-Key" (JVal.str key))
                  "X-RapidAPI-Host" (JVal.str host), query)
        else
          .ok (dictSetdefault headers "Authorization" (JVal.str ("Bearer " ++ key)), query)

/-! ## Redaction and request preparation -/

/-- The built-in sensitive key names of `_redact_sensitive_data`. -/
def baseSensitiveKeys : List String := ["authorization", "api_key", "apikey", "token", "key"]

/-- `_redact_sensitive_data`: mask the value of every key whose lower-cased
name is sensitive (built-ins plus the lower-cased additional names). -/
def redactSensitiveData (data : List (String × JVal)) (additional : List String) :
    List (String × JVal) :=
  let sensitive := baseSensitiveKeys ++ additional.map pyLower
  data.map (fun kv => if pyLower kv.1 ∈ sensitive then (kv.1, JVal.str "***") else kv)

/-- The redacted diagnostics attached to the response metadata
(`request_details` in `execute_api_call`). -/
structure RequestDetails where
  url : String
  headers : List (String × JVal)
  query : List (String × JVal)
  body : List (String × JVal)
  deriving Repr

/-- Result of the request-preparation prefix of `execute_api_call`. -/
structure PreparedCall where
  matched : ExampleEndpoint
  headers : List (String × JVal)
  query : List (String × JVal)
  body : List (String × JVal)
  details : RequestDetails
  deriving Repr

/-- Methods accepted by the dispatcher (`ALLOWED_METHODS`). -/
def allowedMethods : List String := ["GET", "POST", "PUT", "DELETE"]

/-- The network-free prefix of `execute_api_call` (lines 191-217): method
gate, path resolution, endpoint validation, header merge, allow-list
filtering, per-API defaults, auth injection, URL construction and
redaction of the diagnostics. -/
def prepareApiCall (apiDef : APIDefinition) (call : APICall) (apiKey : Option String) :
    Except (Nat × String) PreparedCall :=
  if call.method ∉ allowedMethods then
    .error (400, "Unsupported HTTP method")
  else
    match resolveEndpoint call.path_params call.endpoint with
    | none => .error (400, "Missing path parameter")
    | some resolved =>
        match validateEndpoint apiDef.example_endpoints resolved call.method with
        | none => .error (400, "Endpoint or method not recognized for this API.")
        | some matched =>
            let headers := dictUpdate [("Accept", JVal.str "application/json")] call.headers
            let query := filterParams call.query matched.allowed_query_params
            let query := applyApiDefaults apiDef matched query
            let body := filterParams call.body matched.allowed_body_params
            match applyAuth apiDef headers query apiKey with
            | .error e => .error e
            | .ok (headers, query) =>
                let url := String.mk (rstripSlash apiDef.base_url.data) ++ resolved
                let sensitiveNames :=
                  if apiDef.auth_key_name ≠ "" then [apiDef.auth_key_name] else []
                .ok { matched := matched, headers := headers, query := query, body := body,
                      details := { url := url,
                                   headers := redactSensitiveData headers sensitiveNames,
                                   query := redactSensitiveData query sensitiveNames,
                                   body := redactSensitiveData body sensitiveNames } }

/-! ## Response cache (`SimpleCache`)

The store is a Python dict keyed by the cache key: an insertion-ordered
association list of `(key, (timestamp, value))`.  `time.time()` is an
explicit integer argument. -/

/-- `SimpleCache` state (constructor defaults: `maxsize=64`, `ttl=120`). -/
structure SimpleCache (V : Type) where
  maxsize : Nat
  ttl : Int
  store : List (String × Int × V)
  deriving Repr

/-- A fresh cache. -/
def mkCache (V : Type) (maxsize : Nat := 64) (ttl : Int := 120) : SimpleCache V :=
  { maxsize := maxsize, ttl := ttl, store := [] }

/-- `min(store.items(), key=ts)`: the first entry with minimal timestamp. -/
def minByTs : List (String × Int × V) → Option (String × Int × V)
  | [] => none
  | e :: rest =>
      some (rest.foldl (fun a e' => if e'.2.1 < a.2.1 then e' else a) e)

/-- One capacity eviction: pop the oldest-by-timestamp key. -/
def evictOldest (store : List (String × Int × V)) : List (String × Int × V) :=
  match minByTs store with
  | none => store
  | some e => dictPop store e.1

/-- The `while len > maxsize` eviction loop of `_prune`, with explicit fuel
(one eviction removes one entry, so the list length is always enough). -/
def evictLoop (maxsize : Nat) : Nat → List (String × Int × V) → List (String × Int × V)
  | 0, store => store
  | fuel + 1, store =>
      if maxsize < store.length then evictLoop maxsize fuel (evictOldest store)
      else store

/-- `SimpleCache._prune` at time `now`: drop expired entries
(`now - ts > ttl`), then evict oldest entries while over capacity. -/
def SimpleCache.prune (c : SimpleCache V) (now : Int) : SimpleCache V :=
  let kept := c.store.filter (fun e => ¬ c.ttl < now - e.2.1)
  { c with store := evictLoop c.maxsize kept.length kept }

/-- `SimpleCache.get` at time `now`: prune, look the key up, and drop it
(returning `None`) when it expired between insertions.  Returns the read
result together with the updated cache state. -/
def SimpleCache.get (c : SimpleCache V) (now : Int) (key : String) :
    Option V × SimpleCache V :=
  let c' := c.prune now
  match c'.store.lookup key with
  | none => (none, c')
  | some (ts, v) =>
      if c'.ttl < now - ts then (none, { c' with store := dictPop c'.store key })
      else (some v, c')

/-- `SimpleCache.set` at time `now`: store `(now, value)` under the key,
then prune. -/
def SimpleCache.set (c : SimpleCache V) (now : Int) (key : String) (v : V) :
    SimpleCache V :=
  SimpleCache.prune { c with store := dictSet c.store key (now, v) } now

/-- Run a sequence of `set` calls (key, time, value). -/
def insertAll (c : SimpleCache V) (ins : List (String × Int × V)) : SimpleCache V :=
  ins.foldl (fun acc e => acc.set e.2.1 e.1 e.2.2) c

/-! ## Call dispatcher (the attempt loop of `execute_api_call`)

One HTTP attempt is abstracted as a function from the `trust_env` flag to
its outcome; `ok` means the request returned and `raise_for_status` did
not raise (a 2xx status). -/

/-- Outcome of a single `httpx` attempt. -/
inductive AttemptOutcome where
  | ok : Nat → String → AttemptOutcome
  | proxyError : String → AttemptOutcome
  | statusError : Nat → String → AttemptOutcome
  | connectError : String → AttemptOutcome
  | otherError : String → AttemptOutcome
  deriving Repr, DecidableEq

/-- One record of the `attempts` diagnostics list. -/
inductive AttemptEntry where
  | success : Bool → Nat → AttemptEntry
  | failure : Bool → String → AttemptEntry
  | httpFailure : Bool → Nat → String → AttemptEntry
  deriving Repr, DecidableEq

/-- `_truncate`: cap a string at 500 characters. -/
def truncateText (s : String) : String :=
  if s.length ≤ 500 then s else String.mk (s.data.take 500) ++ "... (truncated)"

/-- Final result of the dispatch loop: an HTTP-style error, or the 2xx
status with the response body and the `trust_env` that succeeded. -/
inductive DispatchResult where
  | failed : Nat → String → DispatchResult
  | succeeded : Nat → String → Bool → DispatchResult
  deriving Repr, DecidableEq

/-- The body of `for trust_env in (True, False)` for one attempt: either a
terminal result or a continue (`none`), plus the attempts entry appended. -/
def dispatchStep (outcome : AttemptOutcome) (trustEnv : Bool) :
    Option DispatchResult × AttemptEntry :=
  match outcome with
  | .ok status text => (some (.succeeded status text trustEnv), .success trustEnv status)
  | .proxyError msg =>
      (if trustEnv then none else some (.failed 502 ("API request failed: " ++ msg)),
       .failure trustEnv msg)
  | .statusError status content =>
      (some (.failed status ("API returned an error: " ++ truncateText content)),
       .httpFailure trustEnv status (truncateText content))
  | .connectError msg =>
      (if trustEnv then none else some (.failed 502 ("API request failed: " ++ msg)),
       .failure trustEnv msg)
  | .otherError msg =>
      (some (.failed 502 ("API request failed: " ++ msg)), .failure trustEnv msg)

/-- The retry loop of `execute_api_call`, unrolled over its two fixed
transport configurations: first with `trust_env=True`, then (only when the
first failure was a proxy error, or a connection error) with
`trust_env=False`.  Returns the terminal result and the attempts log. -/
def dispatchCall (world : Bool → AttemptOutcome) : DispatchResult × List AttemptEntry :=
  match dispatchStep (world true) true with
  | (some r, e1) => (r, [e1])
  | (none, e1) =>
      match dispatchStep (world false) false with
      | (some r, e2) => (r, [e1, e2])
      | (none, e2) => (.failed 502 "API request failed", [e1, e2])

/-! ## Summarizer (`backend/summarizer.py`)

`_as_number`, `_as_date`, list discovery, domain inference, sort-key
selection, ranking and domain metrics of `extract_relevant_items`. -/

/-- Python whitespace stripped by `str.strip()` (ASCII subset). -/
def isPyWs (c : Char) : Bool :=
  c = ' ' || c = '\t' || c = '\n' || c = '\r' || c = '\x0b' || c = '\x0c'

/-- `value.replace(",", "").strip()`. -/
def cleanNumString (l : List Char) : List Char :=
  ((l.filter (· ≠ ',')).dropWhile isPyWs).reverse.dropWhile isPyWs |>.reverse

/-- Numeric value of a decimal digit list. -/
def digitsToNat (l : List Char) : Nat :=
  l.foldl (fun acc c => acc * 10 + (c.toNat - 48)) 0

/-- Python `float(s)` on a cleaned string: optional sign, decimal digits
with an optional fraction and exponent.  (`inf`/`nan` literals and digit
underscores are accepted by Python but not modelled; no theorem below
relies on them.) -/
def pyFloat (l : List Char) : Option Rat :=
  let (neg, l1) :=
    match l with
    | '+' :: r => (false, r)
    | '-' :: r => (true, r)
    | _ => (false, l)
  let ip := l1.takeWhile Char.isDigit
  let l2 := l1.dropWhile Char.isDigit
  let (fp, l3) :=
    match l2 with
    | '.' :: r => (r.takeWhile Char.isDigit, r.dropWhile Char.isDigit)
    | _ => ([], l2)
  if ip = [] ∧ fp = [] then none
  else
    let mantissa : Rat := (digitsToNat ip : Rat) + (digitsToNat fp : Rat) / (10 : Rat) ^ fp.length
    let signed := if neg then -mantissa else mantissa
    match l3 with
    | [] => some signed
    | e :: r =>
        if e = 'e' ∨ e = 'E' then
          let (eneg, r1) :=
            match r with
            | '+' :: r' => (false, r')
            | '-' :: r' => (true, r')
            | _ => (false, r)
          let ed := r1.takeWhile Char.isDigit
          let r2 := r1.dropWhile Char.isDigit
          if ed = [] ∨ r2 ≠ [] then none
          else
            let ex : Int := if eneg then -(digitsToNat ed : Int) else (digitsToNat ed : Int)
            some (signed * (10 : Rat) ^ ex)
        else none

/-- `_as_number` applied to `item.get(key)`: numbers pass through (`Rat`
has no NaN, so the `isnan` guard is vacuous here), Python `bool` counts as
`int`, strings are cleaned and parsed with `float`, everything else is
`None`. -/
def asNumber : Option JVal → Option Rat
  | some (JVal.num q) => some q
  | some (JVal.bool b) => some (if b then 1 else 0)
  | some (JVal.str s) => pyFloat (cleanNumString s.data)
  | _ => none

/-- A parsed `datetime` (only the date parts are ever set by `_as_date`;
missing month/day default to 1 as in `strptime`). -/
structure PyDate where
  year : Nat
  month : Nat
  day : Nat
  deriving Repr, DecidableEq

/-- `datetime` ordering, restricted to dates. -/
def PyDate.ltb (a b : PyDate) : Bool :=
  a.year < b.year ∨ (a.year = b.year ∧ (a.month < b.month ∨ (a.month = b.month ∧ a.day < b.day)))

/-- Days in a month, with the Gregorian leap rule (as validated by the
`datetime` constructor). -/
def daysInMonth (y m : Nat) : Nat :=
  if m = 2 then
    if y % 4 = 0 ∧ (y % 100 ≠ 0 ∨ y % 400 = 0) then 29 else 28
  else if m = 4 ∨ m = 6 ∨ m = 9 ∨ m = 11 then 30
  else 31

/-- The `datetime` constructor's validity check. -/
def mkPyDate (y m d : Nat) : Option PyDate :=
  if 1 ≤ y ∧ y ≤ 9999 ∧ 1 ≤ m ∧ m ≤ 12 ∧ 1 ≤ d ∧ d ≤ daysInMonth y m then
    some ⟨y, m, d⟩
  else none

/-- `strptime` directive `%Y`: exactly four digits. -/
def parseY4 : List Char → Option (Nat × List Char)
  | a :: b :: c :: d :: rest =>
      if a.isDigit ∧ b.isDigit ∧ c.isDigit ∧ d.isDigit then
        some (digitsToNat [a, b, c, d], rest)
      else none
  | _ => none

/-- `strptime` directive `%m`: the regex `(1[0-2]|0[1-9]|[1-9])`, trying
the two-digit alternatives first. -/
def parseM : List Char → Option (Nat × List Char)
  | a :: b :: rest =>
      if (a = '1' ∧ '0' ≤ b ∧ b ≤ '2') ∨ (a = '0' ∧ '1' ≤ b ∧ b ≤ '9') then
        some (digitsToNat [a, b], rest)
      else if '1' ≤ a ∧ a ≤ '9' then some (digitsToNat [a], b :: rest)
      else none
  | [a] => if '1' ≤ a ∧ a ≤ '9' then some (digitsToNat [a], []) else none
  | [] => none

/-- `strptime` directive `%d`: the regex `(3[01]|[12]\d|0[1-9]|[1-9])`. -/
def parseD : List Char → Option (Nat × List Char)
  | a :: b :: rest =>
      if a = '3' ∧ ('0' ≤ b ∧ b ≤ '1') then some (digitsToNat [a, b], rest)
      else if ('1' ≤ a ∧ a ≤ '2') ∧ b.isDigit then some (digitsToNat [a, b], rest)
      else if a = '0' ∧ ('1' ≤ b ∧ b ≤ '9') then some (digitsToNat [b], rest)
      else if '1' ≤ a ∧ a ≤ '9' then some (digitsToNat [a], b :: rest)
      else none
  | [a] => if '1' ≤ a ∧ a ≤ '9' then some (digitsToNat [a], []) else none
  | [] => none

/-- Consume one literal character. -/
def parseLitChar (c : Char) : List Char → Option (List Char)
  | d :: rest => if d = c then some rest else none
  | [] => none

/-- `datetime.strptime(s, "%Y-%m-%d")` (or with `/`): full-string match,
then date validation. -/
def strptimeYMD (sep : Char) (l : List Char) : Option PyDate := do
  let (y, r1) ← parseY4 l
  let r2 ← parseLitChar sep r1
  let (m, r3) ← parseM r2
  let r4 ← parseLitChar sep r3
  let (d, r5) ← parseD r4
  if r5 = [] then mkPyDate y m d else none

/-- `datetime.strptime(s, "%Y-%m")`. -/
def strptimeYM (l : List Char) : Option PyDate := do
  let (y, r1) ← parseY4 l
  let r2 ← parseLitChar '-' r1
  let (m, r3) ← parseM r2
  if r3 = [] then mkPyDate y m 1 else none

/-- `datetime.strptime(s, "%Y")`. -/
def strptimeY (l : List Char) : Option PyDate := do
  let (y, r1) ← parseY4 l
  if r1 = [] then mkPyDate y 1 1 else none

/-- `_as_date`: only strings parse; each format is tried in order on the
prefix `value[:len(fmt)]`, where `len(fmt)` is the length of the *format
string* — 8 for `%Y-%m-%d` and `%Y/%m/%d`, 5 for `%Y-%m`, 2 for `%Y`. -/
def asDate : Option JVal → Option PyDate
  | some (JVal.str s) =>
      match strptimeYMD '-' (s.data.take 8) with
      | some d => some d
      | none =>
          match strptimeYMD '/' (s.data.take 8) with
          | some d => some d
          | none =>
              match strptimeYM (s.data.take 5) with
              | some d => some d
              | none => strptimeY (s.data.take 2)
  | _ => none

/-- `_get_list_from_response`: a list payload is used directly; an object
payload is probed at `results`, `data`, `list`, `items` for a list value. -/
def getListFromResponse (payload : JVal) : List JVal :=
  match payload with
  | JVal.arr l => l
  | JVal.obj o =>
      let probe := fun (k : String) =>
        match o.lookup k with
        | some (JVal.arr l) => some l
        | _ => none
      match probe "results" with
      | some l => l
      | none =>
          match probe "data" with
          | some l => l
          | none =>
              match probe "list" with
              | some l => l
              | none => (probe "items").getD []
  | _ => []

/-- The `context` dict handed to the extractor (`user_query`, `api_name`). -/
structure Context where
  user_query : String := ""
  api_name : String := ""
  deriving Repr

/-- Substring test (Python `needle in text`). -/
def hasInfix (h n : List Char) : Bool :=
  (List.range (h.length + 1)).any (fun i => ((h.drop i).take n.length) == n)

/-- `_infer_domain`: keyword match over the lower-cased concatenation of
user text and API name. -/
def inferDomain (ctx : Context) : String :=
  let text := pyLower (ctx.user_query ++ " " ++ ctx.api_name)
  if ["movie", "film", "tmdb", "tv"].any (fun w => hasInfix text.data w.data) then "movies"
  else if ["coin", "stock", "finance", "crypto", "market"].any
      (fun w => hasInfix text.data w.data) then "finance"
  else if ["weather", "forecast", "temperature", "rain"].any
      (fun w => hasInfix text.data w.data) then "weather"
  else "generic"

/-- Python truthiness of a JSON value. -/
def jTruthy : JVal → Bool
  | JVal.null => false
  | JVal.bool b => b
  | JVal.num q => q ≠ 0
  | JVal.str s => s ≠ ""
  | JVal.arr l => !l.isEmpty
  | JVal.obj o => !o.isEmpty

/-- Python `str(...)` restricted to the values `_item_name` renders.  The
claims only exercise the string case; numeric/container rendering is
approximated and documented as such. -/
def pyStr : JVal → String
  | JVal.str s => s
  | JVal.bool b => if b then "True" else "False"
  | JVal.null => "None"
  | JVal.num q => toString q.num
  | JVal.arr _ => "<list>"
  | JVal.obj _ => "<dict>"

/-- `_item_name`: first truthy of `title`, `name`, `id`, `symbol`, rendered
with `str`; `"item"` otherwise. -/
def itemName (item : List (String × JVal)) : String :=
  let pick := fun (k : String) =>
    match item.lookup k with
    | some v => if jTruthy v then some (pyStr v) else none
    | none => none
  ((pick "title").orElse fun _ =>
    (pick "name").orElse fun _ =>
      (pick "id").orElse fun _ => pick "symbol").getD "item"

/-- `_sort_candidates_for_domain`. -/
def sortCandidatesForDomain (domain : String) : List (List String × Bool) :=
  if domain = "movies" then
    [(["vote_average", "rating"], true), (["popularity"], true),
     (["release_date", "first_air_date"], true)]
  else if domain = "finance" then
    [(["market_cap", "marketCap"], true),
     (["current_price", "regularMarketPrice", "price"], true),
     (["price_change_24h"], true)]
  else if domain = "weather" then
    [(["temp", "temperature"], true), (["humidity"], true)]
  else [(["score", "rank", "popularity"], true)]

/-- `_choose_sort_key`: first candidate key present on at least one item. -/
def chooseSortKey (items : List (List (String × JVal))) (domain : String) :
    Option String × Bool :=
  let rec go : List (List String × Bool) → Option String × Bool
    | [] => (none, true)
    | (keys, desc) :: rest =>
        match keys.find? (fun k => items.any (fun it => (it.lookup k).isSome)) with
        | some k => (some k, desc)
        | none => go rest
  go (sortCandidatesForDomain domain)

/-- `_collect_metric`: best item by numeric value at `key` (first-seen wins
ties, matching the head of a stable sort). -/
def collectMetric (items : List (List (String × JVal))) (key : String)
    (reverse : Bool) : Option (List (String × JVal)) :=
  let scored := items.filterMap (fun it => (asNumber (it.lookup key)).map (·, it))
  match scored with
  | [] => none
  | e :: rest =>
      some (rest.foldl
        (fun best x => if (if reverse then best.1 < x.1 else x.1 < best.1) then x else best)
        e).2

/-- `_collect_date_metric`: item with the maximal parsed date at `key`
(first-seen wins ties). -/
def collectDateMetric (items : List (List (String × JVal))) (key : String) :
    Option (List (String × JVal)) :=
  let scored := items.filterMap (fun it => (asDate (it.lookup key)).map (·, it))
  match scored with
  | [] => none
  | e :: rest =>
      some (rest.foldl (fun best x => if PyDate.ltb best.1 x.1 then x else best) e).2

/-- One ranked entry of `top_items`. -/
structure RankedItem where
  rank : Nat
  name : String
  score_key : String
  score : Rat
  metadata : List (String × JVal)
  deriving Repr

/-- One named domain metric. -/
structure MetricEntry where
  name : String
  value : Option JVal
  raw : List (String × JVal)
  deriving Repr

/-- The insights dict built by `extract_relevant_items`.  `top_items` and
`metrics` are `Option`s because the source only sets those dict keys on
some paths. -/
structure Insight where
  domain : String
  item_count : Nat
  top_items : Option (List RankedItem)
  metrics : Option (List (String × MetricEntry))
  deriving Repr

/-- Stable insertion step for the `scored.sort(key=..., reverse=...)`
call: an element goes before the first strictly-worse one. -/
def insertScored (desc : Bool) (x : Rat × List (String × JVal)) :
    List (Rat × List (String × JVal)) → List (Rat × List (String × JVal))
  | [] => [x]
  | y :: rest =>
      if (if desc then y.1 ≤ x.1 else x.1 ≤ y.1) then x :: y :: rest
      else y :: insertScored desc x rest

/-- Stable sort of the scored list (descending when `desc`). -/
def sortScored (desc : Bool) (l : List (Rat × List (String × JVal))) :
    List (Rat × List (String × JVal)) :=
  l.foldr (insertScored desc) []

/-- The metadata field allow-list of `extract_relevant_items`. -/
def metadataKeys : List String :=
  ["vote_count", "popularity", "release_date", "first_air_date", "market_cap",
   "current_price", "regularMarketPrice", "symbol", "id", "title", "name", "overview"]

/-- `extract_relevant_items`: rank list payloads and compute domain
metrics.  Total by construction — the extraction has no failure path. -/
def extractRelevantItems (payload : JVal) (ctx : Context) : Insight :=
  let itemsRaw := getListFromResponse payload
  let items := itemsRaw.filterMap (fun v => match v with | JVal.obj o => some o | _ => none)
  let domain := inferDomain ctx
  if items.isEmpty then
    { domain := domain, item_count := itemsRaw.length, top_items := some [], metrics := none }
  else
    let chosen := chooseSortKey items domain
    let desc := chosen.2
    let top : Option (List RankedItem) :=
      match chosen.1 with
      | some sortKey =>
          let sortable := items.filterMap (fun it => (asNumber (it.lookup sortKey)).map (·, it))
          if sortable.isEmpty then none
          else
            some (((sortScored desc sortable).take 5).enum.map (fun si =>
              { rank := si.1 + 1
                name := itemName si.2.2
                score_key := sortKey
                score := si.2.1
                metadata := si.2.2.filter (fun kv => kv.1 = sortKey ∨ kv.1 ∈ metadataKeys) }))
      | none => some []
    let numericMetrics : List (String × MetricEntry) :=
      [("top_by_rating", "vote_average", true), ("top_by_popularity", "popularity", true),
       ("lowest_price", "current_price", false),
       ("highest_market_cap", "market_cap", true)].filterMap (fun lkr =>
        (collectMetric items lkr.2.1 lkr.2.2).map (fun best =>
          (lkr.1, { name := itemName best, value := best.lookup lkr.2.1, raw := best })))
    let recent : Option (String × MetricEntry) :=
      ["release_date", "first_air_date", "date", "timestamp"].firstM (fun k =>
        (collectDateMetric items k).map (fun best =>
          ("most_recent", { name := itemName best, value := best.lookup k, raw := best })))
    let metricsList := numericMetrics ++ (recent.map ([·])).getD []
    { domain := domain, item_count := itemsRaw.length, top_items := top,
      metrics := if metricsList.isEmpty then none else some metricsList }

/-! ## Payload normalizer (`backend/ollama_client.py`)

`_load_json_payload` and the parts of `json.loads` it relies on.  The
parser models the strict CPython `json` grammar (objects, arrays, strings
with escapes and rejected control characters, numbers `-?(0|[1-9]\d*)`
with optional fraction/exponent, `true`/`false`/`null`).  The `NaN` /
`Infinity` constants, surrogate-pair handling of `\u` escapes and the
last-wins semantics of duplicate object keys are not exercised by any
theorem below and are left unmodelled (duplicate keys are kept in order
in the association list). -/

/-- JSON whitespace (`' '`, tab, newline, carriage return). -/
def skipJsonWs (l : List Char) : List Char :=
  l.dropWhile (fun c => c = ' ' || c = '\t' || c = '\n' || c = '\r')

/-- Hex digit value. -/
def hexVal (c : Char) : Option Nat :=
  if '0' ≤ c ∧ c ≤ '9' then some (c.toNat - 48)
  else if 'a' ≤ c ∧ c ≤ 'f' then some (c.toNat - 87)
  else if 'A' ≤ c ∧ c ≤ 'F' then some (c.toNat - 55)
  else none

/-- JSON string body parser (after the opening quote): accumulates until
the closing quote, decoding escapes and rejecting raw control characters
(CPython `strict=True`). -/
def pJStringAux : List Char → List Char → Option (List Char × List Char)
  | _, [] => none
  | acc, c :: rest =>
      if c = '"' then some (acc.reverse, rest)
      else if c = '\\' then
        match rest with
        | '"' :: r => pJStringAux ('"' :: acc) r
        | '\\' :: r => pJStringAux ('\\' :: acc) r
        | '/' :: r => pJStringAux ('/' :: acc) r
        | 'b' :: r => pJStringAux ('\x08' :: acc) r
        | 'f' :: r => pJStringAux ('\x0c' :: acc) r
        | 'n' :: r => pJStringAux ('\n' :: acc) r
        | 'r' :: r => pJStringAux ('\r' :: acc) r
        | 't' :: r => pJStringAux ('\t' :: acc) r
        | 'u' :: h1 :: h2 :: h3 :: h4 :: r =>
            match hexVal h1, hexVal h2, hexVal h3, hexVal h4 with
            | some a, some b, some cc, some d =>
                pJStringAux (Char.ofNat (((a * 16 + b) * 16 + cc) * 16 + d) :: acc) r
            | _, _, _, _ => none
        | _ => none
      else if c.toNat < 0x20 then none
      else pJStringAux (c :: acc) rest

/-- JSON number parser: `-?(0|[1-9]\d*)(\.\d+)?([eE][+-]?\d+)?`. -/
def pJNumber (l : List Char) : Option (Rat × List Char) :=
  let (neg, l1) := match l with | '-' :: r => (true, r) | _ => (false, l)
  let ipRes : Option (List Char × List Char) :=
    match l1 with
    | '0' :: r => some (['0'], r)
    | c :: _ =>
        if '1' ≤ c ∧ c ≤ '9' then
          some (l1.takeWhile Char.isDigit, l1.dropWhile Char.isDigit)
        else none
    | [] => none
  match ipRes with
  | none => none
  | some (ip, l2) =>
      let (fp, l3) :=
        match l2 with
        | '.' :: r =>
            if (r.takeWhile Char.isDigit) = [] then ([], l2)
            else (r.takeWhile Char.isDigit, r.dropWhile Char.isDigit)
        | _ => ([], l2)
      let (ex, l4) :=
        match l3 with
        | e :: r =>
            if e = 'e' ∨ e = 'E' then
              let (eneg, r1) :=
                match r with
                | '+' :: r' => (false, r')
                | '-' :: r' => (true, r')
                | _ => (false, r)
              let ed := r1.takeWhile Char.isDigit
              if ed = [] then ((0 : Int), l3)
              else ((if eneg then -(digitsToNat ed : Int) else (digitsToNat ed : Int)),
                    r1.dropWhile Char.isDigit)
            else ((0 : Int), l3)
        | [] => ((0 : Int), l3)
      let mantissa : Rat :=
        (digitsToNat ip : Rat) + (digitsToNat fp : Rat) / (10 : Rat) ^ fp.length
      some (((if neg then -mantissa else mantissa) * (10 : Rat) ^ ex), l4)

/-- Parser mode: a value, or the member/element loop of a partially parsed
object/array. -/
inductive JPMode where
  | val : JPMode
  | objLoop : List (String × JVal) → JPMode
  | arrLoop : List JVal → JPMode

/-- Recursive JSON parser (fuel-bounded; `2 * length + 2` always
suffices). -/
def pJ : Nat → JPMode → List Char → Option (JVal × List Char)
  | 0, _, _ => none
  | fuel + 1, JPMode.val, l =>
      match l with
      | '"' :: rest => (pJStringAux [] rest).map (fun sr => (JVal.str (String.mk sr.1), sr.2))
      | '{' :: rest =>
          (match skipJsonWs rest with
           | '}' :: r => some (JVal.obj [], r)
           | l1 => pJ fuel (JPMode.objLoop []) l1)
      | '[' :: rest =>
          (match skipJsonWs rest with
           | ']' :: r => some (JVal.arr [], r)
           | l1 => pJ fuel (JPMode.arrLoop []) l1)
      | 't' :: 'r' :: 'u' :: 'e' :: r => some (JVal.bool true, r)
      | 'f' :: 'a' :: 'l' :: 's' :: 'e' :: r => some (JVal.bool false, r)
      | 'n' :: 'u' :: 'l' :: 'l' :: r => some (JVal.null, r)
      | _ => (pJNumber l).map (fun nr => (JVal.num nr.1, nr.2))
  | fuel + 1, JPMode.objLoop acc, l =>
      match l with
      | '"' :: rest =>
          match pJStringAux [] rest with
          | none => none
          | some (k, r1) =>
              match skipJsonWs r1 with
              | ':' :: r2 =>
                  match pJ fuel JPMode.val (skipJsonWs r2) with
                  | none => none
                  | some (v, r3) =>
                      match skipJsonWs r3 with
                      | ',' :: r4 =>
                          match skipJsonWs r4 with
                          | '"' :: r5 =>
                              pJ fuel (JPMode.objLoop (acc ++ [(String.mk k, v)])) ('"' :: r5)
                          | _ => none
                      | '}' :: r4 => some (JVal.obj (acc ++ [(String.mk k, v)]), r4)
                      | _ => none
              | _ => none
      | _ => none
  | fuel + 1, JPMode.arrLoop acc, l =>
      match pJ fuel JPMode.val l with
      | none => none
      | some (v, r1) =>
          match skipJsonWs r1 with
          | ',' :: r2 => pJ fuel (JPMode.arrLoop (acc ++ [v])) (skipJsonWs r2)
          | ']' :: r2 => some (JVal.arr (acc ++ [v]), r2)
          | _ => none

/-- `json.loads`: parse one value surrounded only by whitespace. -/
def jsonLoads (text : String) : Option JVal :=
  let l := skipJsonWs text.data
  match pJ (2 * l.length + 2) JPMode.val l with
  | some (v, rest) => if skipJsonWs rest = [] then some v else none
  | none => none

/-- `re.sub(r"//.*", "", line)`: cut the line at its first `//`
(string-literal contents included — the regex is line-oriented only). -/
def stripLineComment : List Char → List Char
  | [] => []
  | c :: rest =>
      if c = '/' ∧ rest.head? = some '/' then []
      else c :: stripLineComment rest

/-- Python `str.splitlines()` restricted to `\n` terminators (the only
ones the repaired candidates contain): no trailing empty line. -/
def splitLinesAux : List Char → List Char → List (List Char)
  | acc, [] => [acc.reverse]
  | acc, '\n' :: rest =>
      if rest = [] then [acc.reverse] else acc.reverse :: splitLinesAux [] rest
  | acc, c :: rest => splitLinesAux (c :: acc) rest

/-- `str.splitlines()` (on `\n`). -/
def splitLines (l : List Char) : List (List Char) :=
  if l = [] then [] else splitLinesAux [] l

/-- The comment-stripping step of `_load_json_payload`: strip each line's
`//` tail and re-join with newlines. -/
def stripComments (l : List Char) : List Char :=
  List.intercalate ['\n'] ((splitLines l).map stripLineComment)

/-- `_load_json_payload`: strict parse; on failure slice from the first
`{`, truncate after the last `}`, pad unbalanced braces, strip `//` line
comments, and parse again.  `none` is the terminal "model response was not
valid JSON" failure surfaced as HTTP 500 by `generate_api_call`. -/
def loadJsonPayload (text : String) : Option JVal :=
  match jsonLoads text with
  | some v => some v
  | none =>
      let l := text.data
      if '{' ∉ l then none
      else
        let candidate := l.dropWhile (· ≠ '{')
        let candidate2 :=
          match candidate.reverse.findIdx? (· = '}') with
          | some ri =>
              let e := candidate.length - 1 - ri
              if 0 < e then candidate.take (e + 1) else candidate
          | none => candidate
        let opens := candidate2.count '{'
        let closes := candidate2.count '}'
        let candidate3 := candidate2 ++ List.replicate (opens - closes) '}'
        jsonLoads (String.mk (stripComments candidate3))

/-! ## Structured path templates (for the endpoint-matcher theorems)

A well-formed template path is rendered from a nonempty list of nonempty
segments; each segment is a list of literal characters and `{name}`
placeholders.  The well-formedness side conditions keep the rendered
string inside the regime where the model's exact-character matching
coincides with Python's regex behaviour (regex-inert literals, no nested
braces, no query/fragment markers). -/

/-- One piece of a template path segment. -/
inductive SegPart where
  | lit : Char → SegPart
  | hole : String → SegPart
  deriving Repr, DecidableEq

/-- Is this piece a literal character? -/
def SegPart.isLit : SegPart → Bool
  | SegPart.lit _ => true
  | SegPart.hole _ => false

/-- Render one piece as template text. -/
def renderSegPart : SegPart → List Char
  | SegPart.lit c => [c]
  | SegPart.hole n => '{' :: n.data ++ ['}']

/-- Render one segment as template text. -/
def renderSeg (seg : List SegPart) : List Char := seg.flatMap renderSegPart

/-- Render the whole template (`/seg1/seg2/...`). -/
def renderTpl (segs : List (List SegPart)) : List Char :=
  segs.flatMap (fun s => '/' :: renderSeg s)

/-- Render one piece with every placeholder substituted by its
percent-encoded parameter value. -/
def resolvedSegPart (params : List (String × String)) : SegPart → List Char
  | SegPart.lit c => [c]
  | SegPart.hole n => pyQuote ((params.lookup n).getD "").data

/-- Render one substituted segment. -/
def resolvedSeg (params : List (String × String)) (seg : List SegPart) : List Char :=
  seg.flatMap (resolvedSegPart params)

/-- Render the whole substituted path. -/
def resolvedTpl (params : List (String × String)) (segs : List (List SegPart)) : List Char :=
  segs.flatMap (fun s => '/' :: resolvedSeg params s)

/-- Regex-inert literal characters for template paths. -/
def safeLitChar (c : Char) : Prop := c.isAlphanum = true ∨ c = '-' ∨ c = '_'

/-- A usable placeholder name: nonempty, no slash, braces or
query/fragment markers. -/
def holeNameOk (n : String) : Prop :=
  n ≠ "" ∧ ∀ c ∈ n.data, c ≠ '/' ∧ c ≠ '{' ∧ c ≠ '}' ∧ c ≠ '?' ∧ c ≠ '#'

/-- Well-formedness of one template piece. -/
def SegPart.ok : SegPart → Prop
  | SegPart.lit c => safeLitChar c
  | SegPart.hole n => holeNameOk n

/-- Well-formedness of a template: nonempty segments of well-formed
pieces. -/
def tplOk (segs : List (List SegPart)) : Prop :=
  segs ≠ [] ∧ ∀ s ∈ segs, s ≠ [] ∧ ∀ p ∈ s, p.ok

/-- Every placeholder of the template is assigned a nonempty value. -/
def paramsOk (params : List (String × String)) (segs : List (List SegPart)) : Prop :=
  ∀ s ∈ segs, ∀ p ∈ s, ∀ n, p = SegPart.hole n →
    ∃ v, params.lookup n = some v ∧ v ≠ ""

/-- Header names written by `_apply_auth` for the given strategy. -/
def authHeaderNames (apiDef : APIDefinition) : List String :=
  if apiDef.auth_type = "none" then []
  else if apiDef.auth_type = "header" then ["Authorization"]
  else if apiDef.auth_type = "query" then []
  else if apiDef.auth_type = "rapidapi" then ["X-RapidAPI-Key", "X-RapidAPI-Host"]
  else ["Authorization"]

/-- Query keys written by `_apply_auth` for the given strategy. -/
def authQueryNames (apiDef : APIDefinition) : List String :=
  if apiDef.auth_type = "query" then [apiDef.auth_key_name] else []

/-! ## Concrete instances used by counterexamples and witnesses -/

/-- A RapidAPI-authenticated API with the default `auth_key_name`. -/
def apiDefRapid : APIDefinition :=
  { name := "demo", base_url := "https://api.example.com", auth_type := "rapidapi",
    example_endpoints := [{ name := "ping", path := "/ping", method := "GET" }] }

/-- A trivial GET call against `/ping`. -/
def callPing : APICall := { endpoint := "/ping", method := "GET" }

/-- A templated example endpoint. -/
def epUser : ExampleEndpoint := { name := "get-user", path := "/users/{id}", method := "GET" }

/-- A character that can appear in `quote` output is never a slash, brace
or query/fragment marker. -/
abbrev goodQuoteChar (c : Char) : Prop :=
  c ≠ '/' ∧ c ≠ '?' ∧ c ≠ '#' ∧ c ≠ '{' ∧ c ≠ '}'

def renderParts (ps : List SegPart) : List Char := ps.flatMap renderSegPart

def resolvedParts (params : List (String × String)) (ps : List SegPart) : List Char :=
  ps.flatMap (resolvedSegPart params)

def flattenTpl (segs : List (List SegPart)) : List SegPart :=
  segs.flatMap (fun s => SegPart.lit '/' :: s)

def resolvablePart (params : List (String × String)) : SegPart → Prop
  | SegPart.lit c => c ≠ '{'
  | SegPart.hole n => n.data ≠ [] ∧ (∀ c ∈ n.data, c ≠ '}') ∧ (params.lookup n).isSome

/-- Characters that may appear in a normalized path without disturbing the
matcher model. -/
abbrev goodPathChar (c : Char) : Prop :=
  c ≠ '/' ∧ c ≠ '{' ∧ c ≠ '}' ∧ c ≠ '?' ∧ c ≠ '#'

/-! # Theorems -/

theorem lookup_mem {α : Type} {l : List (String × α)} {k : String} {v : α}
    (h : l.lookup k = some v) : (k, v) ∈ l := by
  induction l with
  | nil => simp [List.lookup] at h
  | cons a t ih =>
      rw [List.lookup] at h
      by_cases hk : k = a.1
      · subst hk
        simp at h
        subst h
        exact List.mem_cons_self _ _
      · have : (k == a.1) = false := beq_false_of_ne hk
        rw [this] at h
        exact List.mem_cons_of_mem _ (ih h)

theorem lookup_append {α : Type} (l₁ l₂ : List (String × α)) (k : String) :
    (l₁ ++ l₂).lookup k = ((l₁.lookup k).or (l₂.lookup k)) := by
  induction l₁ with
  | nil => simp [List.lookup]
  | cons a t ih =>
      rw [List.cons_append, List.lookup, List.lookup]
      cases hb : (k == a.1) with
      | true => simp
      | false => simpa using ih

theorem dictSetdefault_of_isSome {α : Type} {m : List (String × α)} {k : String}
    {v : α} (h : (m.lookup k).isSome) : dictSetdefault m k v = m := by
  unfold dictSetdefault
  cases hm : m.lookup k with
  | some w => rfl
  | none => rw [hm] at h; simp at h

theorem lookup_dictSetdefault_ne {α : Type} (m : List (String × α)) (k n : String)
    (v : α) (hne : n ≠ k) : (dictSetdefault m k v).lookup n = m.lookup n := by
  unfold dictSetdefault
  cases hm : m.lookup k with
  | some w => rfl
  | none =>
      rw [lookup_append]
      have : ([(k, v)].lookup n : Option α) = none := by
        simp [List.lookup, beq_false_of_ne hne]
      rw [this]
      cases m.lookup n <;> rfl

/-- C3 (amended).  The claim as written fails when an endpoint *declares an
empty allow-list* (`allowed_query_params = []` is falsy, so `_filter_params`
passes everything through); for a **non-empty** allow-list every resolved
query/body key (after the per-API defaulting step of lines 202-204) lies in
the declared set, and with no allow-list (or an empty one) the parameters
pass through unchanged. -/
theorem c3_allowlist_filtering :
    (∀ (q : List (String × JVal)) (apiDef : APIDefinition) (ep : ExampleEndpoint)
        (l : List String), ep.allowed_query_params = some l → l ≠ [] →
        (applyApiDefaults apiDef ep (filterParams q ep.allowed_query_params)).all
          (fun kv => decide (kv.1 ∈ l)) = true) ∧
    (∀ (b : List (String × JVal)) (l : List String), l ≠ [] →
        (filterParams b (some l)).all (fun kv => decide (kv.1 ∈ l)) = true) ∧
    (∀ (q : List (String × JVal)) (apiDef : APIDefinition) (ep : ExampleEndpoint),
        ep.allowed_query_params = none →
        applyApiDefaults apiDef ep (filterParams q ep.allowed_query_params) = q) ∧
    (∀ (b : List (String × JVal)) (allowed : Option (List String)),
        allowed = none ∨ allowed = some [] → filterParams b allowed = b) := by
  have hfilter : ∀ (b : List (String × JVal)) (l : List String), l ≠ [] →
      (filterParams b (some l)).all (fun kv => decide (kv.1 ∈ l)) = true := by
    intro b l hl
    match l with
    | [] => exact absurd rfl hl
    | x :: xs =>
        rw [List.all_eq_true]
        intro kv hkv
        unfold filterParams at hkv
        have := (List.mem_filter.mp hkv).2
        simpa using this
  refine ⟨?_, hfilter, ?_, ?_⟩
  · intro q apiDef ep l hq hl
    unfold applyApiDefaults
    rw [hq]
    split
    · next hcond =>
        rw [List.all_append, Bool.and_eq_true]
        refine And.intro (hfilter _ _ hl) ?_
        have hf : "fields" ∈ l := by simpa [allowList] using hcond.2.2.1
        simp [hf]
    · exact hfilter _ _ hl
  · intro q apiDef ep hnone
    unfold applyApiDefaults
    rw [hnone]
    simp [truthyAllow, filterParams]
  · intro b allowed h
    rcases h with h | h <;> subst h <;> rfl

/-- C3, counterexample to the claim as stated: an endpoint declaring the
empty allow-list keeps a key (`"a"`) that is outside the declared set. -/
theorem c3_counterexample :
    filterParams [("a", JVal.null)] (some []) = [("a", JVal.null)] ∧
    "a" ∉ ([] : List String) :=
  ⟨rfl, by simp⟩

/-- C3 witness: the amended theorem applied to a concrete query and
allow-list. -/
theorem c3_witness :
    (filterParams [("a", JVal.null), ("b", JVal.num 1)] (some ["a"])).all
      (fun kv => decide (kv.1 ∈ ["a"])) = true :=
  c3_allowlist_filtering.2.1 [("a", JVal.null), ("b", JVal.num 1)] ["a"] (by simp)

/-- C5: dispatcher retry.  A proxy error on the trusting first attempt
followed by a 2xx on the non-trusting second attempt yields a success
whose attempts log has exactly the two entries; a non-2xx upstream status
on the first attempt fails immediately with the upstream status and a
one-entry attempts log. -/
theorem c5_dispatcher_retry :
    (∀ (world : Bool → AttemptOutcome) (m t : String) (s : Nat),
        world true = AttemptOutcome.proxyError m → world false = AttemptOutcome.ok s t →
        dispatchCall world =
          (DispatchResult.succeeded s t false,
           [AttemptEntry.failure true m, AttemptEntry.success false s])) ∧
    (∀ (world : Bool → AttemptOutcome) (content : String) (s : Nat),
        world true = AttemptOutcome.statusError s content →
        dispatchCall world =
          (DispatchResult.failed s ("API returned an error: " ++ truncateText content),
           [AttemptEntry.httpFailure true s (truncateText content)])) := by
  constructor
  · intro world m t s h1 h2
    simp [dispatchCall, dispatchStep, h1, h2]
  · intro world content s h1
    simp [dispatchCall, dispatchStep, h1]

/-- C5 witness: the retry theorem applied to two concrete transport
worlds. -/
theorem c5_witness :
    dispatchCall (fun trust => if trust then AttemptOutcome.proxyError "proxy down"
        else AttemptOutcome.ok 200 "body") =
      (DispatchResult.succeeded 200 "body" false,
       [AttemptEntry.failure true "proxy down", AttemptEntry.success false 200]) ∧
    dispatchCall (fun _ => AttemptOutcome.statusError 404 "missing") =
      (DispatchResult.failed 404 ("API returned an error: " ++ truncateText "missing"),
       [AttemptEntry.httpFailure true 404 (truncateText "missing")]) :=
  ⟨c5_dispatcher_retry.1 _ "proxy down" "body" 200 rfl rfl,
   c5_dispatcher_retry.2 _ "missing" 404 rfl⟩

/-- C8: auth injection uses `setdefault` semantics for all four strategies
(`none`, `header`, `query`, `rapidapi`): when the strategy's own auth
entries are already present the headers/query maps are returned unchanged,
and an entry outside the strategy's own auth names is never modified. -/
theorem c8_auth_setdefault :
    ∀ (apiDef : APIDefinition) (headers query : List (String × JVal)) (key : String),
      apiDef.auth_type ∈ ["none", "header", "query", "rapidapi"] →
      key ≠ "" →
      (apiDef.auth_type = "rapidapi" → netlocOf apiDef.base_url ≠ "") →
      ((apiDef.auth_type = "none" →
          applyAuth apiDef headers query (some key) = .ok (headers, query)) ∧
       (apiDef.auth_type = "header" → (headers.lookup "Authorization").isSome →
          applyAuth apiDef headers query (some key) = .ok (headers, query)) ∧
       (apiDef.auth_type = "query" → (query.lookup apiDef.auth_key_name).isSome →
          applyAuth apiDef headers query (some key) = .ok (headers, query)) ∧
       (apiDef.auth_type = "rapidapi" → (headers.lookup "X-RapidAPI-Key").isSome →
          (headers.lookup "X-RapidAPI-Host").isSome →
          applyAuth apiDef headers query (some key) = .ok (headers, query)) ∧
       (∀ h' q', applyAuth apiDef headers query (some key) = .ok (h', q') →
          ∀ n, n ∉ authHeaderNames apiDef → h'.lookup n = headers.lookup n) ∧
       (∀ h' q', applyAuth apiDef headers query (some key) = .ok (h', q') →
          ∀ n, n ∉ authQueryNames apiDef → q'.lookup n = query.lookup n)) := by
  intro apiDef headers query key hmem hk hhost
  simp only [List.mem_cons, List.not_mem_nil, or_false] at hmem
  rcases hmem with hty | hty | hty | hty
  · -- auth_type = "none"
    have happ : applyAuth apiDef headers query (some key) = .ok (headers, query) := by
      simp [applyAuth, hty]
    refine ⟨fun _ => happ, ?_, ?_, ?_, ?_, ?_⟩
    · intro h; rw [hty] at h; exact absurd h (by decide)
    · intro h; rw [hty] at h; exact absurd h (by decide)
    · intro h; rw [hty] at h; exact absurd h (by decide)
    · intro h' q' h n _
      rw [happ] at h
      obtain ⟨rfl, rfl⟩ := Prod.mk.injEq .. ▸ (Except.ok.inj h)
      rfl
    · intro h' q' h n _
      rw [happ] at h
      obtain ⟨rfl, rfl⟩ := Prod.mk.injEq .. ▸ (Except.ok.inj h)
      rfl
  · -- auth_type = "header"
    have happ : applyAuth apiDef headers query (some key) =
        .ok (dictSetdefault headers "Authorization" (JVal.str ("Bearer " ++ key)), query) := by
      simp [applyAuth, hty, hk]
    refine ⟨?_, ?_, ?_, ?_, ?_, ?_⟩
    · intro h; rw [hty] at h; exact absurd h (by decide)
    · intro _ hpres
      rw [happ, dictSetdefault_of_isSome hpres]
    · intro h; rw [hty] at h; exact absurd h (by decide)
    · intro h; rw [hty] at h; exact absurd h (by decide)
    · intro h' q' h n hn
      rw [happ] at h
      obtain ⟨rfl, rfl⟩ := Prod.mk.injEq .. ▸ (Except.ok.inj h)
      simp only [authHeaderNames, hty] at hn
      have : n ≠ "Authorization" := by
        simp only [reduceIte, String.reduceEq, if_false] at hn
        simpa using hn
      exact lookup_dictSetdefault_ne _ _ _ _ this
    · intro h' q' h n hn
      rw [happ] at h
      obtain ⟨rfl, rfl⟩ := Prod.mk.injEq .. ▸ (Except.ok.inj h)
      rfl
  · -- auth_type = "query"
    have happ : applyAuth apiDef headers query (some key) =
        .ok (headers, dictSetdefault query apiDef.auth_key_name (JVal.str key)) := by
      simp [applyAuth, hty, hk]
    refine ⟨?_, ?_, ?_, ?_, ?_, ?_⟩
    · intro h; rw [hty] at h; exact absurd h (by decide)
    · intro h; rw [hty] at h; exact absurd h (by decide)
    · intro _ hpres
      rw [happ, dictSetdefault_of_isSome hpres]
    · intro h; rw [hty] at h; exact absurd h (by decide)
    · intro h' q' h n hn
      rw [happ] at h
      obtain ⟨rfl, rfl⟩ := Prod.mk.injEq .. ▸ (Except.ok.inj h)
      rfl
    · intro h' q' h n hn
      rw [happ] at h
      obtain ⟨rfl, rfl⟩ := Prod.mk.injEq .. ▸ (Except.ok.inj h)
      simp only [authQueryNames, hty] at hn
      have : n ≠ apiDef.auth_key_name := by
        simp only [reduceIte] at hn
        simpa using hn
      exact lookup_dictSetdefault_ne _ _ _ _ this
  · -- auth_type = "rapidapi"
    have hne : netlocOf apiDef.base_url ≠ "" := hhost hty
    have happ : applyAuth apiDef headers query (some key) =
        .ok (dictSetdefault (dictSetdefault headers "X-RapidAPI-Key" (JVal.str key))
              "X-RapidAPI-Host" (JVal.str (netlocOf apiDef.base_url)), query) := by
      simp [applyAuth, hty, hk, hne]
    refine ⟨?_, ?_, ?_, ?_, ?_, ?_⟩
    · intro h; rw [hty] at h; exact absurd h (by decide)
    · intro h; rw [hty] at h; exact absurd h (by decide)
    · intro h; rw [hty] at h; exact absurd h (by decide)
    · intro _ hkey hhostPres
      rw [happ, dictSetdefault_of_isSome hkey, dictSetdefault_of_isSome hhostPres]
    · intro h' q' h n hn
      rw [happ] at h
      obtain ⟨rfl, rfl⟩ := Prod.mk.injEq .. ▸ (Except.ok.inj h)
      simp only [authHeaderNames, hty] at hn
      have hn' : n ≠ "X-RapidAPI-Key" ∧ n ≠ "X-RapidAPI-Host" := by
        simp only [reduceIte, String.reduceEq, if_false] at hn
        simpa using hn
      rw [lookup_dictSetdefault_ne _ _ _ _ hn'.2, lookup_dictSetdefault_ne _ _ _ _ hn'.1]
    · intro h' q' h n hn
      rw [happ] at h
      obtain ⟨rfl, rfl⟩ := Prod.mk.injEq .. ▸ (Except.ok.inj h)
      rfl

/-- C8 witness: a caller-supplied `Authorization` header survives header
auth injection unchanged. -/
theorem c8_witness :
    applyAuth { name := "d", base_url := "https://h.example", auth_type := "header" }
        [("Authorization", JVal.str "Bearer caller"), ("Other", JVal.str "o")] [] (some "k1") =
      .ok ([("Authorization", JVal.str "Bearer caller"), ("Other", JVal.str "o")], []) :=
  (c8_auth_setdefault _ _ _ "k1" (by decide) (by decide)
    (fun h => absurd h (by decide))).2.1 rfl (by decide)

/-- C1 (code bug in the source): under the `rapidapi` strategy the secret
is injected into the `X-RapidAPI-Key` header, whose lower-casing is in
neither the built-in sensitive set of `_redact_sensitive_data` nor the
additional set `{auth_key_name}` (default `api_key`), so the raw secret
appears verbatim in the redacted request details attached to the metadata;
two runs identical except for the secret therefore produce different
redacted details.  (Under `header`/`query` the injected credential is
masked, as the last two conjuncts show.) -/
theorem c1_rapidapi_secret_leak :
    ((prepareApiCall apiDefRapid callPing (some "SECRET123")).toOption.map
        (fun p => p.details.headers.lookup "X-RapidAPI-Key")) =
      some (some (JVal.str "SECRET123")) ∧
    ((prepareApiCall apiDefRapid callPing (some "KEY-A")).toOption.map
        (fun p => p.details.headers.lookup "X-RapidAPI-Key")) ≠
      ((prepareApiCall apiDefRapid callPing (some "KEY-B")).toOption.map
        (fun p => p.details.headers.lookup "X-RapidAPI-Key")) ∧
    ((prepareApiCall { apiDefRapid with auth_type := "header" } callPing
        (some "SECRET123")).toOption.map
        (fun p => p.details.headers.lookup "Authorization")) =
      some (some (JVal.str "***")) ∧
    ((prepareApiCall { apiDefRapid with auth_type := "query" } callPing
        (some "SECRET123")).toOption.map
        (fun p => p.details.query.lookup "api_key")) =
      some (some (JVal.str "***")) := by
  refine ⟨rfl, ?_, rfl, rfl⟩
  intro h
  have ha : (prepareApiCall apiDefRapid callPing (some "KEY-A")).toOption.map
      (fun p => p.details.headers.lookup "X-RapidAPI-Key") =
      some (some (JVal.str "KEY-A")) := rfl
  have hb : (prepareApiCall apiDefRapid callPing (some "KEY-B")).toOption.map
      (fun p => p.details.headers.lookup "X-RapidAPI-Key") =
      some (some (JVal.str "KEY-B")) := rfl
  rw [ha, hb] at h
  injection h with h1
  injection h1 with h2
  injection h2 with h3
  exact absurd h3 (by decide)

/-- C6 (code bug in the source): `_as_date` truncates the value to
`len(fmt)` characters, where `len` counts the *format string* (8 for
`%Y-%m-%d` and `%Y/%m/%d`, 5 for `%Y-%m`, 2 for `%Y`), so every
canonically formatted date string (`YYYY-MM-DD`, `YYYY/MM/DD`, `YYYY-MM`,
`YYYY`) fails all four formats, and an item list whose dates are canonical
produces no `most_recent` metric at all (here: no metrics dict). -/
theorem c6_date_truncation :
    asDate (some (JVal.str "2023-05-01")) = none ∧
    asDate (some (JVal.str "2023/05/01")) = none ∧
    asDate (some (JVal.str "2023-05")) = none ∧
    asDate (some (JVal.str "2023")) = none ∧
    (extractRelevantItems (JVal.arr
        [JVal.obj [("name", JVal.str "A"), ("release_date", JVal.str "2023-05-01")],
         JVal.obj [("name", JVal.str "B"), ("release_date", JVal.str "2021-01-15")]])
      { user_query := "", api_name := "" }).metrics = none :=
  ⟨rfl, rfl, rfl, rfl, rfl⟩

/-- Helper: filtering a mapped object list back out recovers it. -/
theorem filterMap_obj_map (objs : List (List (String × JVal))) :
    (objs.map JVal.obj).filterMap
      (fun v => match v with | JVal.obj o => some o | _ => none) = objs := by
  induction objs with
  | nil => rfl
  | cons o t ih => simp only [List.map_cons, List.filterMap_cons, ih]

/-- C7: the insight extractor never fails (it is a total function of this
model): an empty list yields `item_count = 0` with empty `top_items`, and
a non-empty list of items all of whose values are non-numeric yields no
ranked items (the `top_items` key is either absent or empty). -/
theorem c7_extractor_robust :
    (∀ ctx : Context,
        (extractRelevantItems (JVal.arr []) ctx).item_count = 0 ∧
        (extractRelevantItems (JVal.arr []) ctx).top_items = some []) ∧
    (∀ (ctx : Context) (objs : List (List (String × JVal))),
        (∀ o ∈ objs, ∀ kv ∈ o, asNumber (some kv.2) = none) →
        ((extractRelevantItems (JVal.arr (objs.map JVal.obj)) ctx).top_items).getD [] = []) := by
  constructor
  · intro ctx
    exact ⟨rfl, rfl⟩
  · intro ctx objs hnn
    have hitems := filterMap_obj_map objs
    cases objs with
    | nil => rfl
    | cons o t =>
        simp only [extractRelevantItems, getListFromResponse, hitems]
        simp only [List.isEmpty_cons, Bool.false_eq_true, if_false]
        cases hck : (chooseSortKey (o :: t) (inferDomain ctx)).1 with
        | none => simp [hck]
        | some k =>
            have hsortable : (o :: t).filterMap
                (fun it => (asNumber (it.lookup k)).map (·, it)) = [] := by
              rw [List.filterMap_eq_nil_iff]
              intro it hit
              cases hlk : it.lookup k with
              | none => rfl
              | some v =>
                  rw [hnn it hit (k, v) (lookup_mem hlk)]
                  rfl
            simp [hck, hsortable]

/-- C7 witness: one item whose only value is a non-numeric string. -/
theorem c7_witness :
    ((extractRelevantItems (JVal.arr ([[("score", JVal.str "not-a-number")]].map JVal.obj))
      { user_query := "", api_name := "" }).top_items).getD [] = [] :=
  c7_extractor_robust.2 { user_query := "", api_name := "" }
    [[("score", JVal.str "not-a-number")]] (by decide)

/-- C9: `item_count` always counts the raw discovered list (non-dict
elements included), while only dict elements are considered for ranking —
a list of non-dict values yields `item_count = N` with empty top items. -/
theorem c9_item_count :
    (∀ (payload : JVal) (ctx : Context),
        (extractRelevantItems payload ctx).item_count = (getListFromResponse payload).length) ∧
    (∀ (ctx : Context) (l : List JVal), (∀ x ∈ l, ∀ o, x ≠ JVal.obj o) →
        (extractRelevantItems (JVal.arr l) ctx).item_count = l.length ∧
        (extractRelevantItems (JVal.arr l) ctx).top_items = some []) := by
  constructor
  · intro payload ctx
    simp only [extractRelevantItems]
    split <;> rfl
  · intro ctx l hno
    have hitems : l.filterMap
        (fun v => match v with | JVal.obj o => some o | _ => none) = [] := by
      rw [List.filterMap_eq_nil_iff]
      intro x hx
      cases x with
      | obj o => exact absurd rfl (hno _ hx o)
      | null => rfl
      | bool b => rfl
      | num q => rfl
      | str s => rfl
      | arr a => rfl
    simp only [extractRelevantItems, getListFromResponse, hitems]
    exact ⟨rfl, rfl⟩

/-- C9 witness: three non-dict values count as three items with no ranked
entries. -/
theorem c9_witness :
    (extractRelevantItems (JVal.arr [JVal.num 1, JVal.str "a", JVal.null])
        { user_query := "", api_name := "" }).item_count = 3 ∧
    (extractRelevantItems (JVal.arr [JVal.num 1, JVal.str "a", JVal.null])
        { user_query := "", api_name := "" }).top_items = some [] :=
  c9_item_count.2 { user_query := "", api_name := "" }
    [JVal.num 1, JVal.str "a", JVal.null]
    (by intro x hx o; fin_cases hx <;> simp)

/-- C10: the repair path's comment stripping cuts every line at its first
`//` — string-literal contents included — so there is model output (here
`Call: ` followed by a JSON object holding a URL) whose brace-delimited
substring alone is valid JSON, yet `_load_json_payload` still fails with
the model-output-not-valid-JSON error. -/
theorem c10_comment_stripping :
    (∀ (pre post : List Char),
        List.Chain' (fun a b => ¬(a = '/' ∧ b = '/')) (pre ++ ['/']) →
        stripLineComment (pre ++ '/' :: '/' :: post) = pre) ∧
    (jsonLoads "Call: \x7b\"url\": \"https://a.b\"\x7d" = none ∧
     jsonLoads "\x7b\"url\": \"https://a.b\"\x7d" =
       some (JVal.obj [("url", JVal.str "https://a.b")]) ∧
     "Call: \x7b\"url\": \"https://a.b\"\x7d".data.dropWhile (· ≠ '{') =
       "\x7b\"url\": \"https://a.b\"\x7d".data ∧
     loadJsonPayload "Call: \x7b\"url\": \"https://a.b\"\x7d" = none) := by
  constructor
  · intro pre post h
    induction pre with
    | nil =>
        simp [stripLineComment]
    | cons c rest ih =>
        cases rest with
        | nil =>
            have hr : c ≠ '/' := by
              have := (List.chain'_cons.mp h).1
              intro hc
              exact this ⟨hc, rfl⟩
            simp [stripLineComment, hr]
        | cons d rest' =>
            have h' := List.chain'_cons.mp h
            have hcd : ¬(c = '/' ∧ d = '/') := h'.1
            have goal2 := ih h'.2
            rw [List.cons_append, stripLineComment]
            rw [if_neg]
            · rw [goal2]
            · simpa using hcd
  · exact ⟨rfl, rfl, rfl, rfl⟩

/-- C10 witness: stripping a concrete line with a `//` tail. -/
theorem c10_witness :
    stripLineComment ('a' :: '/' :: '/' :: ['b']) = ['a'] :=
  c10_comment_stripping.1 ['a'] ['b'] (List.chain'_pair.mpr (by decide))

theorem lookup_eq_none_iff {α : Type} (m : List (String × α)) (k : String) :
    m.lookup k = none ↔ k ∉ m.map Prod.fst := by
  induction m with
  | nil => simp [List.lookup]
  | cons a t ih =>
      rw [List.lookup]
      by_cases hk : k = a.1
      · subst hk
        simp
      · rw [beq_false_of_ne hk]
        simp [ih, hk]

theorem nodup_keys_lookup {α : Type} {m : List (String × α)} {k : String} {p : α}
    (hnd : (m.map Prod.fst).Nodup) (hmem : (k, p) ∈ m) : m.lookup k = some p := by
  induction m with
  | nil => simp at hmem
  | cons a t ih =>
      rw [List.map_cons, List.nodup_cons] at hnd
      rcases List.mem_cons.mp hmem with h | h
      · subst h
        simp [List.lookup]
      · have hk : k ≠ a.1 := by
          intro he
          exact hnd.1 (he ▸ List.mem_map_of_mem Prod.fst h)
        rw [List.lookup, beq_false_of_ne hk]
        exact ih hnd.2 h

theorem dictSet_fresh {α : Type} {m : List (String × α)} {k : String} (v : α)
    (h : k ∉ m.map Prod.fst) : dictSet m k v = m ++ [(k, v)] := by
  induction m with
  | nil => rfl
  | cons a t ih =>
      simp only [List.map_cons, List.mem_cons] at h
      push_neg at h
      rw [dictSet, if_neg (fun he => h.1 he.symm), ih h.2, List.cons_append]

theorem evictLoop_of_le {V : Type} (M fuel : Nat) (l : List (String × Int × V))
    (h : l.length ≤ M) : evictLoop M fuel l = l := by
  cases fuel with
  | zero => rfl
  | succ n =>
      rw [evictLoop, if_neg]
      omega

theorem foldl_min_head {V : Type} (e : String × Int × V) (rest : List (String × Int × V))
    (h : ∀ x ∈ rest, ¬ x.2.1 < e.2.1) :
    rest.foldl (fun a e' => if e'.2.1 < a.2.1 then e' else a) e = e := by
  induction rest with
  | nil => rfl
  | cons x t ih =>
      rw [List.foldl_cons, if_neg (h x (List.mem_cons_self x t))]
      exact ih (fun y hy => h y (List.mem_cons_of_mem x hy))

theorem minByTs_head {V : Type} (e : String × Int × V) (rest : List (String × Int × V))
    (h : ∀ x ∈ rest, e.2.1 < x.2.1) : minByTs (e :: rest) = some e := by
  have h1 : minByTs (e :: rest) =
      some (rest.foldl (fun a e' => if e'.2.1 < a.2.1 then e' else a) e) := rfl
  rw [h1, foldl_min_head e rest (fun x hx => by have := h x hx; omega)]

theorem dictPop_head {V : Type} (e : String × Int × V) (rest : List (String × Int × V))
    (h : ∀ x ∈ rest, x.1 ≠ e.1) : dictPop (e :: rest) e.1 = rest := by
  unfold dictPop
  rw [List.filter_cons, if_neg (by simp)]
  exact List.filter_eq_self.mpr (fun x hx => by simpa using h x hx)

theorem evictOldest_sorted {V : Type} (x : String × Int × V)
    (rest : List (String × Int × V))
    (hx : ∀ y ∈ rest, x.2.1 < y.2.1) (hkeys : ∀ y ∈ rest, y.1 ≠ x.1) :
    evictOldest (x :: rest) = rest := by
  unfold evictOldest
  rw [minByTs_head x rest hx]
  exact dictPop_head x rest hkeys

theorem set_fresh {V : Type} (c : SimpleCache V) (k : String) (t : Int) (v : V)
    (hnd : (c.store.map Prod.fst).Nodup)
    (hk : k ∉ c.store.map Prod.fst)
    (hsort : c.store.Pairwise (fun a b => a.2.1 < b.2.1))
    (ht : ∀ e ∈ c.store, e.2.1 < t)
    (hexp : ∀ e ∈ c.store, t - e.2.1 ≤ c.ttl)
    (h0 : 0 ≤ c.ttl)
    (hlen : c.store.length ≤ c.maxsize) :
    (c.set t k v).store = (c.store ++ [(k, t, v)]).drop (c.store.length + 1 - c.maxsize) := by
  unfold SimpleCache.set SimpleCache.prune
  simp only
  rw [dictSet_fresh (t, v) hk]
  have hfilter : (c.store ++ [(k, t, v)]).filter (fun e => ¬ c.ttl < t - e.2.1) =
      c.store ++ [(k, t, v)] := by
    refine List.filter_eq_self.mpr ?_
    intro e he
    rcases List.mem_append.mp he with h | h
    · have := hexp e h
      simp only [decide_eq_true_eq]
      omega
    · simp only [List.mem_singleton] at h
      subst h
      simp only [decide_eq_true_eq]
      omega
  rw [hfilter]
  by_cases hcap : c.store.length + 1 ≤ c.maxsize
  · rw [evictLoop_of_le _ _ _ (by simpa using hcap)]
    have : c.store.length + 1 - c.maxsize = 0 := by omega
    rw [this, List.drop_zero]
  · have hM : c.store.length = c.maxsize := by omega
    rw [List.length_append, List.length_singleton, evictLoop, if_pos (by simp [hM])]
    have hevict : evictOldest (c.store ++ [(k, t, v)]) = (c.store ++ [(k, t, v)]).drop 1 := by
      cases hs : c.store with
      | nil =>
          have h1 : evictOldest ((k, t, v) :: ([] : List (String × Int × V))) = [] :=
            evictOldest_sorted (k, t, v) [] (by simp) (by simp)
          simpa using h1
      | cons x s' =>
          rw [hs] at hnd hk hsort ht
          have hx : ∀ y ∈ s' ++ [(k, t, v)], x.2.1 < y.2.1 := by
            intro y hy
            rcases List.mem_append.mp hy with h | h
            · exact (List.pairwise_cons.mp hsort).1 y h
            · simp only [List.mem_singleton] at h
              subst h
              exact ht x (List.mem_cons_self x s')
          have hkeys : ∀ y ∈ s' ++ [(k, t, v)], y.1 ≠ x.1 := by
            intro y hy
            rcases List.mem_append.mp hy with h | h
            · rw [List.map_cons, List.nodup_cons] at hnd
              intro he
              exact hnd.1 (he ▸ List.mem_map_of_mem Prod.fst h)
            · simp only [List.mem_singleton] at h
              subst h
              intro he
              apply hk
              rw [List.map_cons]
              have hke : k = x.1 := he
              rw [hke]
              exact List.mem_cons_self x.1 _
          rw [List.cons_append, evictOldest_sorted x _ hx hkeys]
          simp
    rw [hevict]
    have hlen2 : ((c.store ++ [(k, t, v)]).drop 1).length ≤ c.maxsize := by
      simp [hM]
    rw [evictLoop_of_le _ _ _ hlen2]
    congr 1
    omega

theorem insertAll_store {V : Type} (ins : List (String × Int × V)) :
    ∀ (c : SimpleCache V),
      0 ≤ c.ttl →
      c.store.length ≤ c.maxsize →
      ((c.store ++ ins).map Prod.fst).Nodup →
      (c.store ++ ins).Pairwise (fun a b => a.2.1 < b.2.1) →
      (∀ e ∈ c.store ++ ins, ∀ e' ∈ c.store ++ ins, e.2.1 - e'.2.1 ≤ c.ttl) →
      (insertAll c ins).store = (c.store ++ ins).drop ((c.store ++ ins).length - c.maxsize) := by
  induction ins with
  | nil =>
      intro c h0 hlen hnd hsort hspan
      simp only [insertAll, List.foldl_nil, List.append_nil]
      have : c.store.length - c.maxsize = 0 := by omega
      rw [this, List.drop_zero]
  | cons e ins' ih =>
      intro c h0 hlen hnd hsort hspan
      have hstore_sub : List.Sublist c.store (c.store ++ (e :: ins')) := List.sublist_append_left _ _
      have hnd_store : (c.store.map Prod.fst).Nodup :=
        (hnd.sublist (hstore_sub.map Prod.fst))
      have hk : e.1 ∉ c.store.map Prod.fst := by
        rw [List.map_append, List.map_cons] at hnd
        have hdisj := (List.nodup_append.mp hnd).2.2
        intro hmem
        exact hdisj hmem (List.mem_cons_self _ _)
      have hsort_store : c.store.Pairwise (fun a b => a.2.1 < b.2.1) :=
        hsort.sublist hstore_sub
      have hcross := (List.pairwise_append.mp hsort).2.2
      have ht : ∀ x ∈ c.store, x.2.1 < e.2.1 :=
        fun x hx => hcross x hx e (List.mem_cons_self _ _)
      have hexp : ∀ x ∈ c.store, e.2.1 - x.2.1 ≤ c.ttl :=
        fun x hx => hspan e (List.mem_append_right _ (List.mem_cons_self _ _))
          x (List.mem_append_left _ hx)
      have heta : (e.1, e.2.1, e.2.2) = e := rfl
      have hset := set_fresh c e.1 e.2.1 e.2.2 hnd_store hk hsort_store ht hexp h0 hlen
      rw [heta] at hset
      set c' := c.set e.2.1 e.1 e.2.2 with hc'
      have hmax : c'.maxsize = c.maxsize := rfl
      have httl : c'.ttl = c.ttl := rfl
      have hall : (c.store ++ [e]) ++ ins' = c.store ++ (e :: ins') := by
        rw [List.append_assoc]
        rfl
      have hsub : List.Sublist (c'.store ++ ins') (c.store ++ (e :: ins')) := by
        rw [← hall]
        exact (hset ▸ (List.drop_sublist _ _)).append_right ins'
      have hlen' : c'.store.length ≤ c'.maxsize := by
        rw [hset, hmax]
        simp only [List.length_drop, List.length_append, List.length_singleton]
        omega
      have hres : (insertAll c (e :: ins')).store = (insertAll c' ins').store := by
        simp only [insertAll, List.foldl_cons]
      rw [hres]
      rw [ih c' (httl ▸ h0) hlen'
        (hnd.sublist (hsub.map Prod.fst))
        (hsort.sublist hsub)
        (fun a ha b hb => httl ▸ hspan a (hsub.mem ha) b (hsub.mem hb))]
      rw [hmax, hset]
      have hdle : c.store.length + 1 - c.maxsize ≤ (c.store ++ [e]).length := by
        simp only [List.length_append, List.length_singleton]
        omega
      rw [← List.drop_append_of_le_length hdle, List.drop_drop, hall]
      congr 1
      simp only [List.length_drop, List.length_append, List.length_singleton, List.length_cons]
      omega

theorem evictOldest_sublist {V : Type} (l : List (String × Int × V)) :
    List.Sublist (evictOldest l) l := by
  unfold evictOldest
  cases minByTs l with
  | none => exact List.Sublist.refl l
  | some e => exact List.filter_sublist l

theorem evictLoop_sublist {V : Type} (M : Nat) (fuel : Nat) :
    ∀ (l : List (String × Int × V)), List.Sublist (evictLoop M fuel l) l := by
  induction fuel with
  | zero => intro l; exact List.Sublist.refl l
  | succ n ih =>
      intro l
      rw [evictLoop]
      split
      · exact (ih (evictOldest l)).trans (evictOldest_sublist l)
      · exact List.Sublist.refl l

theorem prune_store_sublist {V : Type} (c : SimpleCache V) (t : Int) :
    List.Sublist (c.prune t).store c.store := by
  unfold SimpleCache.prune
  exact (evictLoop_sublist _ _ _).trans (List.filter_sublist c.store)

theorem get_of_not_mem {V : Type} (c : SimpleCache V) (t : Int) (k : String)
    (h : k ∉ c.store.map Prod.fst) :
    (c.get t k).1 = none ∧ (c.get t k).2 = c.prune t ∧
      k ∉ ((c.prune t).store.map Prod.fst) := by
  have hsub := (prune_store_sublist c t).map Prod.fst
  have hnot : k ∉ ((c.prune t).store.map Prod.fst) := fun hm => h (hsub.mem hm)
  have hlk : (c.prune t).store.lookup k = none := (lookup_eq_none_iff _ _).mpr hnot
  unfold SimpleCache.get
  simp only [hlk]
  exact ⟨by simp, by simp, hnot⟩

theorem expired_not_mem_prune {V : Type} (c : SimpleCache V) (k : String)
    (ts : Int) (v : V) (t : Int)
    (hnd : (c.store.map Prod.fst).Nodup)
    (hfound : c.store.lookup k = some (ts, v))
    (hexp : c.ttl < t - ts) :
    k ∉ ((c.prune t).store.map Prod.fst) := by
  intro hmem
  obtain ⟨x, hx, hx1⟩ := List.mem_map.mp hmem
  have hx' : x ∈ (c.store.filter (fun e => ¬ c.ttl < t - e.2.1)) :=
    (evictLoop_sublist _ _ _).mem hx
  have hxs : x ∈ c.store := (List.mem_filter.mp hx').1
  have hpred := (List.mem_filter.mp hx').2
  have hxeta : (k, x.2) ∈ c.store := by
    have : x = (k, x.2) := by
      rw [← hx1]
    rw [← this]
    exact hxs
  have := nodup_keys_lookup hnd hxeta
  rw [hfound] at this
  have hx2 : x.2 = (ts, v) := by
    injection this.symm with h
  rw [hx2] at hpred
  simp only [decide_eq_true_eq] at hpred
  omega

/-- C4: the response cache.  (1) Inserting `N > maxsize` distinct keys at
strictly increasing times, all within one TTL of each other, leaves
exactly the `maxsize` most recently inserted entries.  (2) An entry older
than the TTL is absent from a `get` and does not reappear on any later
read. -/
theorem c4_cache_policy :
    (∀ (V : Type) (M : Nat) (T : Int) (ins : List (String × Int × V)),
        0 ≤ T →
        ((ins.map Prod.fst).Nodup) →
        ins.Pairwise (fun a b => a.2.1 < b.2.1) →
        (∀ e ∈ ins, ∀ e' ∈ ins, e.2.1 - e'.2.1 ≤ T) →
        (insertAll (mkCache V M T) ins).store = ins.drop (ins.length - M) ∧
        (M < ins.length → (insertAll (mkCache V M T) ins).store.length = M)) ∧
    (∀ (V : Type) (c : SimpleCache V) (k : String) (ts : Int) (v : V) (t t' : Int),
        (c.store.map Prod.fst).Nodup →
        c.store.lookup k = some (ts, v) → c.ttl < t - ts →
        (c.get t k).1 = none ∧ (((c.get t k).2).get t' k).1 = none) := by
  constructor
  · intro V M T ins h0 hnd hsort hspan
    have h := insertAll_store ins (mkCache V M T) h0 (by simp [mkCache])
      (by simpa [mkCache] using hnd) (by simpa [mkCache] using hsort)
      (by simpa [mkCache] using hspan)
    have hstore : (mkCache V M T).store = [] := rfl
    have hmax : (mkCache V M T).maxsize = M := rfl
    rw [hstore, hmax, List.nil_append] at h
    exact ⟨h, fun hM => by rw [h, List.length_drop]; omega⟩
  · intro V c k ts v t t' hnd hfound hexp
    have hnm := expired_not_mem_prune c k ts v t hnd hfound hexp
    have hlk : (c.prune t).store.lookup k = none := (lookup_eq_none_iff _ _).mpr hnm
    have hfst : (c.get t k).1 = none ∧ (c.get t k).2 = c.prune t := by
      unfold SimpleCache.get
      simp only [hlk]
      exact ⟨by simp, by simp⟩
    refine ⟨hfst.1, ?_⟩
    rw [hfst.2]
    exact (get_of_not_mem (c.prune t) t' k hnm).1

/-- C4 witness: a 2-capacity cache keeps the two most recent of three
inserts, and an entry expires 121 seconds after insertion (TTL 120). -/
theorem c4_witness :
    (insertAll (mkCache Nat 2 120) [("a", 0, 1), ("b", 1, 2), ("c", 2, 3)]).store =
      [("b", 1, 2), ("c", 2, 3)] ∧
    (((mkCache Nat 64 120).set 0 "k" 5).get 121 "k").1 = none ∧
    ((((mkCache Nat 64 120).set 0 "k" 5).get 121 "k").2.get 200 "k").1 = none := by
  refine ⟨?_, ?_⟩
  · have h := (c4_cache_policy.1 Nat 2 120 [("a", 0, 1), ("b", 1, 2), ("c", 2, 3)]
      (by decide) (by decide) (by decide) (by decide)).1
    simpa using h
  · exact c4_cache_policy.2 Nat ((mkCache Nat 64 120).set 0 "k" 5) "k" 0 5 121 200
      (by decide) (by decide) (by decide)

theorem charOfNat_toNat {b : Nat} (h : b < 55296) : (Char.ofNat b).toNat = b := by
  have hv : b.isValidChar := Or.inl h
  rw [Char.ofNat, dif_pos hv]
  rfl

theorem unreserved_le {b : Nat} (h : isUnreservedByte b = true) : b < 55296 := by
  simp only [isUnreservedByte, Bool.or_eq_true, Bool.and_eq_true, decide_eq_true_eq] at h
  omega

theorem unreserved_good {b : Nat} (h : isUnreservedByte b = true) :
    goodQuoteChar (Char.ofNat b) := by
  have hb := unreserved_le h
  have htn := charOfNat_toNat hb
  simp only [isUnreservedByte, Bool.or_eq_true, Bool.and_eq_true, decide_eq_true_eq] at h
  refine ⟨?_, ?_, ?_, ?_, ?_⟩
  · intro hc
    rw [hc] at htn
    have hb : (47 : Nat) = b := by rw [← htn]; decide
    omega
  · intro hc
    rw [hc] at htn
    have hb : (63 : Nat) = b := by rw [← htn]; decide
    omega
  · intro hc
    rw [hc] at htn
    have hb : (35 : Nat) = b := by rw [← htn]; decide
    omega
  · intro hc
    rw [hc] at htn
    have hb : (123 : Nat) = b := by rw [← htn]; decide
    omega
  · intro hc
    rw [hc] at htn
    have hb : (125 : Nat) = b := by rw [← htn]; decide
    omega

theorem hexChar_good (n : Nat) : goodQuoteChar (hexChar n) := by
  unfold hexChar
  cases hg : "0123456789ABCDEF".data.get? n with
  | none => decide
  | some c =>
      have hmem : c ∈ "0123456789ABCDEF".data := List.get?_mem hg
      have : ∀ x ∈ "0123456789ABCDEF".data, goodQuoteChar x := by decide
      simpa using this c hmem

theorem quoteByte_good {b : Nat} {c : Char} (h : c ∈ quoteByte b) : goodQuoteChar c := by
  unfold quoteByte at h
  split at h
  · next hu =>
      simp only [List.mem_singleton] at h
      subst h
      exact unreserved_good hu
  · simp only [List.mem_cons, List.not_mem_nil, or_false] at h
    rcases h with rfl | rfl | rfl
    · decide
    · exact hexChar_good _
    · exact hexChar_good _

theorem quoteByte_ne_nil (b : Nat) : quoteByte b ≠ [] := by
  unfold quoteByte
  split <;> simp

theorem utf8Bytes_ne_nil (c : Char) : utf8Bytes c ≠ [] := by
  simp only [utf8Bytes]
  split
  · simp
  · split
    · simp
    · split <;> simp

theorem pyQuote_good {l : List Char} {c : Char} (h : c ∈ pyQuote l) : goodQuoteChar c := by
  unfold pyQuote at h
  obtain ⟨b, hb, hc⟩ := List.mem_flatMap.mp h
  exact quoteByte_good hc

theorem pyQuote_ne_nil {l : List Char} (h : l ≠ []) : pyQuote l ≠ [] := by
  cases l with
  | nil => exact absurd rfl h
  | cons c rest =>
      unfold pyQuote
      rw [List.flatMap_cons, List.flatMap_append]
      intro hnil
      rcases List.append_eq_nil.mp hnil with ⟨h1, _⟩
      cases hb : utf8Bytes c with
      | nil => exact utf8Bytes_ne_nil c hb
      | cons b bs =>
          rw [hb, List.flatMap_cons] at h1
          rcases List.append_eq_nil.mp h1 with ⟨h2, _⟩
          exact quoteByte_ne_nil b h2

theorem renderTpl_eq_parts (segs : List (List SegPart)) :
    renderTpl segs = renderParts (flattenTpl segs) := by
  induction segs with
  | nil => rfl
  | cons s rest ih =>
      simp only [renderTpl, flattenTpl, renderParts, List.flatMap_cons, List.flatMap_append]
      simp only [renderTpl, flattenTpl, renderParts, List.flatMap_cons] at ih
      rw [ih]
      simp [renderSeg, renderSegPart]

theorem resolvedTpl_eq_parts (params : List (String × String)) (segs : List (List SegPart)) :
    resolvedTpl params segs = resolvedParts params (flattenTpl segs) := by
  induction segs with
  | nil => rfl
  | cons s rest ih =>
      simp only [resolvedTpl, flattenTpl, resolvedParts, List.flatMap_cons, List.flatMap_append]
      simp only [resolvedTpl, flattenTpl, resolvedParts, List.flatMap_cons] at ih
      rw [ih]
      simp [resolvedSeg, resolvedSegPart]

theorem resolveAux_none_cons (params : List (String × String)) (c : Char) (rest : List Char) :
    resolveAux params none (c :: rest) =
      if c = '{' then resolveAux params (some []) rest
      else (resolveAux params none rest).map (c :: ·) := rfl

theorem resolveAux_some_cons (params : List (String × String)) (acc : List Char)
    (c : Char) (rest : List Char) :
    resolveAux params (some acc) (c :: rest) =
      if c = '}' then
        match acc with
        | [] => (resolveAux params none rest).map (fun r => '{' :: '}' :: r)
        | _ :: _ =>
            match params.lookup (String.mk acc.reverse) with
            | some v => (resolveAux params none rest).map (pyQuote v.data ++ ·)
            | none => none
      else resolveAux params (some (c :: acc)) rest := rfl

theorem matchRun_append {i1 i2 : List Char} {p1 p2 : List PatElem}
    (h1 : matchRun i1 p1 = true) (h2 : matchRun i2 p2 = true) :
    matchRun (i1 ++ i2) (p1 ++ p2) = true := by
  induction i1 generalizing p1 with
  | nil =>
      have : p1 = [] := by
        cases p1 with
        | nil => rfl
        | cons q qs => simp [matchRun] at h1
      subst this
      simpa using h2
  | cons c rest ih =>
      cases p1 with
      | nil => simp [matchRun] at h1
      | cons q qs =>
          cases q with
          | lit d =>
              rw [matchRun, Bool.and_eq_true] at h1
              rw [List.cons_append, List.cons_append, matchRun, Bool.and_eq_true]
              exact ⟨h1.1, ih h1.2⟩
          | star =>
              rw [matchRun, Bool.and_eq_true, Bool.or_eq_true] at h1
              rw [List.cons_append, List.cons_append, matchRun, Bool.and_eq_true,
                Bool.or_eq_true]
              refine ⟨h1.1, ?_⟩
              rcases h1.2 with h | h
              · exact Or.inl (ih h)
              · exact Or.inr (by rw [← List.cons_append]; exact ih h)

theorem matchRun_lits (l : List Char) : matchRun l (l.map PatElem.lit) = true := by
  induction l with
  | nil => rfl
  | cons c rest ih => simp [matchRun, ih]

theorem matchRun_star {middle rest : List Char} {ps : List PatElem}
    (hne : middle ≠ []) (hns : ∀ c ∈ middle, c ≠ '/')
    (h : matchRun rest ps = true) :
    matchRun (middle ++ rest) (PatElem.star :: ps) = true := by
  induction middle with
  | nil => exact absurd rfl hne
  | cons c mid ih =>
      rw [List.cons_append, matchRun, Bool.and_eq_true, Bool.or_eq_true]
      refine ⟨by simpa using hns c (List.mem_cons_self _ _), ?_⟩
      cases mid with
      | nil => exact Or.inl (by simpa using h)
      | cons c' mid' =>
          exact Or.inr (ih (by simp) (fun x hx => hns x (List.mem_cons_of_mem _ hx)))

theorem resolveAux_key (params : List (String × String)) (key : List Char) :
    ∀ (acc tail : List Char), (∀ c ∈ key, c ≠ '}') →
    resolveAux params (some acc) (key ++ '}' :: tail) =
      resolveAux params (some (key.reverse ++ acc)) ('}' :: tail) := by
  induction key with
  | nil => intro acc tail _; simp
  | cons c k ih =>
      intro acc tail h
      rw [List.cons_append, resolveAux_some_cons,
        if_neg (by simpa using h c (List.mem_cons_self _ _))]
      rw [ih (c :: acc) tail (fun x hx => h x (List.mem_cons_of_mem _ hx))]
      simp

theorem resolveAux_renderParts (params : List (String × String)) (ps : List SegPart)
    (h : ∀ p ∈ ps, resolvablePart params p) :
    resolveAux params none (renderParts ps) = some (resolvedParts params ps) := by
  induction ps with
  | nil => rfl
  | cons p rest ih =>
      have hrest := ih (fun q hq => h q (List.mem_cons_of_mem _ hq))
      have hp := h p (List.mem_cons_self _ _)
      cases p with
      | lit c =>
          have hc : c ≠ '{' := hp
          simp only [renderParts, List.flatMap_cons, renderSegPart, List.singleton_append]
          rw [resolveAux_none_cons, if_neg (by simpa using hc)]
          simp only [renderParts] at hrest
          rw [hrest]
          simp [resolvedParts, resolvedSegPart, List.flatMap_cons]
      | hole n =>
          obtain ⟨hne, hnc, hsome⟩ := hp
          obtain ⟨v, hv⟩ := Option.isSome_iff_exists.mp hsome
          simp only [renderParts, List.flatMap_cons, renderSegPart]
          rw [List.cons_append, List.cons_append, resolveAux_none_cons, if_pos rfl]
          rw [List.append_assoc, List.singleton_append]
          rw [resolveAux_key params n.data [] _ hnc]
          rw [List.append_nil]
          rw [resolveAux_some_cons, if_pos rfl]
          cases hd : n.data.reverse with
          | nil =>
              have : n.data = [] := by
                have := congrArg List.reverse hd
                simpa using this
              exact absurd this hne
          | cons x xs =>
              have hrev : (x :: xs).reverse = n.data := by
                rw [← hd, List.reverse_reverse]
              rw [hrev]
              have hmkn : String.mk n.data = n := by cases n; rfl
              rw [hmkn, hv]
              simp only [renderParts] at hrest
              rw [hrest]
              simp [resolvedParts, resolvedSegPart, List.flatMap_cons, hv]

theorem lastBraceIdx_none {l : List Char} (h : ∀ c ∈ l, c ≠ '}') :
    lastBraceIdx l = none := by
  induction l with
  | nil => rfl
  | cons c rest ih =>
      rw [lastBraceIdx, ih (fun x hx => h x (List.mem_cons_of_mem _ hx))]
      simp [h c (List.mem_cons_self _ _)]

theorem lastBraceIdx_append_some {ys : List Char} {j : Nat}
    (h : lastBraceIdx ys = some j) (xs : List Char) :
    lastBraceIdx (xs ++ ys) = some (xs.length + j) := by
  induction xs with
  | nil => simpa using h
  | cons c rest ih =>
      rw [List.cons_append, lastBraceIdx, ih]
      simp only [List.length_cons]
      congr 1
      omega

theorem takeWhile_append_all {p : Char → Bool} {xs : List Char} (ys : List Char)
    (h : ∀ c ∈ xs, p c = true) :
    (xs ++ ys).takeWhile p = xs ++ ys.takeWhile p := by
  induction xs with
  | nil => rfl
  | cons c rest ih =>
      rw [List.cons_append, List.takeWhile_cons, h c (List.mem_cons_self _ _),
        ih (fun x hx => h x (List.mem_cons_of_mem _ hx))]
      rfl

theorem dropWhile_append_all {p : Char → Bool} {xs : List Char} (ys : List Char)
    (h : ∀ c ∈ xs, p c = true) :
    (xs ++ ys).dropWhile p = ys.dropWhile p := by
  induction xs with
  | nil => rfl
  | cons c rest ih =>
      rw [List.cons_append, List.dropWhile_cons, h c (List.mem_cons_self _ _)]
      simpa using ih (fun x hx => h x (List.mem_cons_of_mem _ hx))

theorem compileAux_nil (f : Nat) : compileAux f [] = [] := by
  cases f <;> rfl

theorem compileAux_congr :
    ∀ (n : Nat) (l : List Char), l.length ≤ n →
      ∀ (f₁ f₂ : Nat), l.length ≤ f₁ → l.length ≤ f₂ →
      compileAux f₁ l = compileAux f₂ l := by
  intro n
  induction n with
  | zero =>
      intro l hl f₁ f₂ _ _
      have : l = [] := List.length_eq_zero.mp (by omega)
      subst this
      rw [compileAux_nil, compileAux_nil]
  | succ n ih =>
      intro l hl f₁ f₂ h₁ h₂
      cases l with
      | nil => rw [compileAux_nil, compileAux_nil]
      | cons c rest =>
          simp only [List.length_cons] at hl h₁ h₂
          cases f₁ with
          | zero => omega
          | succ a =>
              cases f₂ with
              | zero => omega
              | succ b =>
                  rw [compileAux, compileAux]
                  by_cases hc : c = '{'
                  · rw [if_pos hc, if_pos hc]
                    dsimp only
                    cases hlb : lastBraceIdx (rest.takeWhile (fun x => decide (x ≠ '/'))) with
                    | none =>
                        rw [ih rest (by omega) a b (by omega) (by omega)]
                    | some k =>
                        dsimp only
                        by_cases hk : 1 ≤ k
                        · rw [if_pos hk, if_pos hk]
                          have hargLen : ((rest.takeWhile (fun x => decide (x ≠ '/'))).drop (k + 1) ++
                              rest.dropWhile (fun x => decide (x ≠ '/'))).length ≤ rest.length := by
                            have h1 : (rest.takeWhile (fun x => decide (x ≠ '/'))).length +
                                (rest.dropWhile (fun x => decide (x ≠ '/'))).length = rest.length := by
                              rw [← List.length_append, List.takeWhile_append_dropWhile]
                            rw [List.length_append, List.length_drop]
                            omega
                          rw [ih _ (by omega) a b (by omega) (by omega)]
                        · rw [if_neg hk, if_neg hk,
                            ih rest (by omega) a b (by omega) (by omega)]
                  · rw [if_neg hc, if_neg hc, ih rest (by omega) a b (by omega) (by omega)]

theorem compilePattern_cons_eq (c : Char) (rest : List Char) (hc : c ≠ '{') :
    compilePattern (c :: rest) = PatElem.lit c :: compilePattern rest := by
  unfold compilePattern
  rw [List.length_cons, compileAux, if_neg hc]

theorem compile_lits (A rest : List Char) (h : ∀ c ∈ A, c ≠ '{') :
    compilePattern (A ++ rest) = A.map PatElem.lit ++ compilePattern rest := by
  induction A with
  | nil => rfl
  | cons c A' ih =>
      rw [List.cons_append, compilePattern_cons_eq c _ (h c (List.mem_cons_self _ _)),
        ih (fun x hx => h x (List.mem_cons_of_mem _ hx))]
      rfl

theorem drop_append_length_succ {α : Type} (Q : List α) (c : α) (T : List α) :
    (Q ++ c :: T).drop (Q.length + 1) = T := by
  induction Q with
  | nil => simp
  | cons q Q' ih => simp [ih]

theorem compile_hole_run (Q T rest' : List Char)
    (hQ : ∀ c ∈ Q, c ≠ '/') (hQne : Q ≠ [])
    (hT : ∀ c ∈ T, c ≠ '/' ∧ c ≠ '}' ∧ c ≠ '{')
    (hrest' : rest' = [] ∨ ∃ r, rest' = '/' :: r) :
    compilePattern ('{' :: (Q ++ '}' :: (T ++ rest'))) =
      PatElem.star :: (T.map PatElem.lit ++ compilePattern rest') := by
  unfold compilePattern
  rw [List.length_cons, compileAux, if_pos rfl]
  dsimp only
  have hrestTake : (T ++ rest').takeWhile (fun x => decide (x ≠ '/')) = T ∧
      (T ++ rest').dropWhile (fun x => decide (x ≠ '/')) = rest' := by
    constructor
    · rw [takeWhile_append_all rest' (fun c hc => by simpa using (hT c hc).1)]
      rcases hrest' with h | ⟨r, h⟩ <;> subst h <;> simp [List.takeWhile_cons]
    · rw [dropWhile_append_all rest' (fun c hc => by simpa using (hT c hc).1)]
      rcases hrest' with h | ⟨r, h⟩ <;> subst h <;> simp [List.dropWhile_cons]
  have hrun : (Q ++ '}' :: (T ++ rest')).takeWhile (fun x => decide (x ≠ '/')) =
      Q ++ '}' :: T := by
    rw [takeWhile_append_all _ (fun c hc => by simpa using hQ c hc)]
    rw [List.takeWhile_cons]
    simp only [decide_eq_true_eq]
    rw [if_pos (by decide)]
    rw [hrestTake.1]
  have hdrop : (Q ++ '}' :: (T ++ rest')).dropWhile (fun x => decide (x ≠ '/')) =
      rest' := by
    rw [dropWhile_append_all _ (fun c hc => by simpa using hQ c hc)]
    rw [List.dropWhile_cons]
    simp only [decide_eq_true_eq]
    rw [if_pos (by decide)]
    rw [hrestTake.2]
  rw [hrun, hdrop]
  have hbrace : lastBraceIdx (Q ++ '}' :: T) = some Q.length := by
    have hT' : lastBraceIdx ('}' :: T) = some 0 := by
      rw [lastBraceIdx, lastBraceIdx_none (fun c hc => (hT c hc).2.1)]
      simp
    have := lastBraceIdx_append_some hT' Q
    simpa using this
  rw [hbrace]
  dsimp only
  rw [if_pos (by
    have : Q.length ≠ 0 := fun h => hQne (List.length_eq_zero.mp h)
    omega)]
  rw [drop_append_length_succ Q '}' T]
  have hlen1 : (T ++ rest').length ≤ (Q ++ '}' :: (T ++ rest')).length := by
    simp only [List.length_append, List.length_cons]
    omega
  rw [compileAux_congr (T ++ rest').length (T ++ rest') (le_refl _)
    (Q ++ '}' :: (T ++ rest')).length (T ++ rest').length hlen1 (le_refl _)]
  rw [show compileAux (T ++ rest').length (T ++ rest') = compilePattern (T ++ rest') from rfl]
  rw [compile_lits T rest' (fun c hc => (hT c hc).2.2)]
  rfl

theorem safeLit_good {c : Char} (h : safeLitChar c) : goodPathChar c := by
  rcases h with h | h | h
  · refine ⟨?_, ?_, ?_, ?_, ?_⟩ <;> · intro he; subst he; simp at h
  · subst h; decide
  · subst h; decide

theorem holeName_good {n : String} (h : holeNameOk n) {c : Char} (hc : c ∈ n.data) :
    c ≠ '/' ∧ c ≠ '{' ∧ c ≠ '}' ∧ c ≠ '?' ∧ c ≠ '#' := by
  obtain ⟨h1, h2, h3, h4, h5⟩ := h.2 c hc
  exact ⟨h1, h2, h3, h4, h5⟩

theorem renderSegPart_in_seg {p : SegPart} (hp : p.ok) {c : Char}
    (hc : c ∈ renderSegPart p) : c ≠ '/' ∧ c ≠ '?' ∧ c ≠ '#' := by
  cases p with
  | lit d =>
      simp only [renderSegPart, List.mem_singleton] at hc
      subst hc
      obtain ⟨h1, h2, h3, h4, h5⟩ := safeLit_good hp
      exact ⟨h1, h4, h5⟩
  | hole n =>
      simp only [renderSegPart, List.mem_append, List.mem_cons,
        List.mem_singleton, List.not_mem_nil, or_false] at hc
      rcases hc with (rfl | hc) | rfl
      · exact ⟨by decide, by decide, by decide⟩
      · obtain ⟨h1, _, _, h4, h5⟩ := holeName_good hp hc
        exact ⟨h1, h4, h5⟩
      · exact ⟨by decide, by decide, by decide⟩

theorem renderParts_in_seg {ps : List SegPart} (hok : ∀ p ∈ ps, p.ok) {c : Char}
    (hc : c ∈ renderParts ps) : c ≠ '/' ∧ c ≠ '?' ∧ c ≠ '#' := by
  obtain ⟨p, hp, hcp⟩ := List.mem_flatMap.mp hc
  exact renderSegPart_in_seg (hok p hp) hcp

theorem resolvedSegPart_in_seg {params : List (String × String)} {p : SegPart}
    (hp : p.ok) {c : Char} (hc : c ∈ resolvedSegPart params p) :
    c ≠ '/' ∧ c ≠ '?' ∧ c ≠ '#' := by
  cases p with
  | lit d =>
      simp only [resolvedSegPart, List.mem_singleton] at hc
      subst hc
      obtain ⟨h1, h2, h3, h4, h5⟩ := safeLit_good hp
      exact ⟨h1, h4, h5⟩
  | hole n =>
      obtain ⟨h1, h2, h3, _, _⟩ := pyQuote_good hc
      exact ⟨h1, h2, h3⟩

theorem resolvedParts_in_seg {params : List (String × String)} {ps : List SegPart}
    (hok : ∀ p ∈ ps, p.ok) {c : Char} (hc : c ∈ resolvedParts params ps) :
    c ≠ '/' ∧ c ≠ '?' ∧ c ≠ '#' := by
  obtain ⟨p, hp, hcp⟩ := List.mem_flatMap.mp hc
  exact resolvedSegPart_in_seg (hok p hp) hcp

theorem renderParts_lits_good {ps : List SegPart} (hok : ∀ p ∈ ps, p.ok)
    (hlit : ∀ p ∈ ps, p.isLit = true) {c : Char} (hc : c ∈ renderParts ps) :
    c ≠ '/' ∧ c ≠ '}' ∧ c ≠ '{' := by
  obtain ⟨p, hp, hcp⟩ := List.mem_flatMap.mp hc
  cases p with
  | lit d =>
      simp only [renderSegPart, List.mem_singleton] at hcp
      subst hcp
      obtain ⟨h1, h2, h3, _, _⟩ := safeLit_good (hok _ hp)
      exact ⟨h1, h3, h2⟩
  | hole n =>
      have := hlit _ hp
      simp [SegPart.isLit] at this

theorem resolved_eq_render_of_lits (params : List (String × String))
    {ps : List SegPart} (hlit : ∀ p ∈ ps, p.isLit = true) :
    resolvedParts params ps = renderParts ps := by
  induction ps with
  | nil => rfl
  | cons p rest ih =>
      cases p with
      | lit d =>
          simp only [resolvedParts, renderParts, List.flatMap_cons]
          rw [show resolvedSegPart params (SegPart.lit d) = renderSegPart (SegPart.lit d)
            from rfl]
          congr 1
          exact ih (fun q hq => hlit q (List.mem_cons_of_mem _ hq))
      | hole n =>
          have := hlit _ (List.mem_cons_self _ _)
          simp [SegPart.isLit] at this

theorem exists_lit_split (ps : List SegPart) :
    ∃ m t, ps = m ++ t ∧ (∀ p ∈ t, p.isLit = true) ∧
      (m = [] ∨ ∃ m' nm, m = m' ++ [SegPart.hole nm]) := by
  induction ps using List.reverseRecOn with
  | nil => exact ⟨[], [], rfl, by simp, Or.inl rfl⟩
  | append_singleton ps p ih =>
      cases p with
      | lit c =>
          obtain ⟨m, t, heq, hlit, hm⟩ := ih
          refine ⟨m, t ++ [SegPart.lit c], by rw [heq, List.append_assoc], ?_, hm⟩
          intro q hq
          rcases List.mem_append.mp hq with h | h
          · exact hlit q h
          · simp only [List.mem_singleton] at h
            subst h
            rfl
      | hole n =>
          exact ⟨ps ++ [SegPart.hole n], [], by simp, by simp,
            Or.inr ⟨ps, n, rfl⟩⟩

theorem parts_split {seg : List SegPart} {n : String}
    (hn : SegPart.hole n ∈ seg) :
    ∃ Ap n₁ mid Tp, seg = Ap ++ (SegPart.hole n₁ :: (mid ++ Tp)) ∧
      (∀ p ∈ Ap, p.isLit = true) ∧ (∀ p ∈ Tp, p.isLit = true) ∧
      (mid = [] ∨ ∃ m' nm, mid = m' ++ [SegPart.hole nm]) := by
  induction seg with
  | nil => simp at hn
  | cons p rest ih =>
      cases p with
      | lit c =>
          have hn' : SegPart.hole n ∈ rest := by
            rcases List.mem_cons.mp hn with h | h
            · exact absurd h (by simp)
            · exact h
          obtain ⟨Ap, n₁, mid, Tp, heq, hA, hT, hm⟩ := ih hn'
          exact ⟨SegPart.lit c :: Ap, n₁, mid, Tp, by rw [List.cons_append, heq],
            fun q hq => by
              rcases List.mem_cons.mp hq with h | h
              · subst h; rfl
              · exact hA q h, hT, hm⟩
      | hole n₀ =>
          obtain ⟨m, t, heq, hlit, hm⟩ := exists_lit_split rest
          exact ⟨[], n₀, m, t, by rw [List.nil_append, heq], by simp, hlit, hm⟩

theorem string_ne_nil_data {v : String} (h : v ≠ "") : v.data ≠ [] := by
  intro hd
  apply h
  cases v
  simp at hd
  rw [hd]

theorem seg_pattern_match (params : List (String × String)) (seg : List SegPart)
    (rest' restInput : List Char)
    (hok : ∀ p ∈ seg, p.ok)
    (hvals : ∀ p ∈ seg, ∀ n, p = SegPart.hole n →
      ∃ v, params.lookup n = some v ∧ v ≠ "")
    (hrest' : rest' = [] ∨ ∃ r, rest' = '/' :: r)
    (hmatch : matchRun restInput (compilePattern rest') = true) :
    matchRun (resolvedSeg params seg ++ restInput)
      (compilePattern (renderSeg seg ++ rest')) = true := by
  by_cases hhole : ∀ p ∈ seg, p.isLit = true
  · have hres : resolvedSeg params seg = renderParts seg :=
      resolved_eq_render_of_lits params hhole
    have hnb : ∀ c ∈ renderParts seg, c ≠ '{' :=
      fun c hc => (renderParts_lits_good hok hhole hc).2.2
    rw [hres, show renderSeg seg = renderParts seg from rfl, compile_lits _ _ hnb]
    exact matchRun_append (matchRun_lits _) hmatch
  · push_neg at hhole
    obtain ⟨p, hp, hplit⟩ := hhole
    have hpn : ∃ n, p = SegPart.hole n := by
      cases p with
      | lit c => exact absurd rfl hplit
      | hole n => exact ⟨n, rfl⟩
    obtain ⟨n, rfl⟩ := hpn
    obtain ⟨Ap, n₁, mid, Tp, heq, hA, hT, hm⟩ := parts_split hp
    subst heq
    have hokA : ∀ q ∈ Ap, q.ok := fun q hq => hok q (List.mem_append_left _ hq)
    have hok1 : (SegPart.hole n₁).ok :=
      hok _ (List.mem_append_right _ (List.mem_cons_self _ _))
    have hokM : ∀ q ∈ mid, q.ok := fun q hq =>
      hok q (List.mem_append_right _ (List.mem_cons_of_mem _ (List.mem_append_left _ hq)))
    have hokT : ∀ q ∈ Tp, q.ok := fun q hq =>
      hok q (List.mem_append_right _ (List.mem_cons_of_mem _ (List.mem_append_right _ hq)))
    obtain ⟨v₁, hv₁, hv₁ne⟩ :=
      hvals _ (List.mem_append_right _ (List.mem_cons_self _ _)) n₁ rfl
    have hTcond : ∀ c ∈ renderParts Tp, c ≠ '/' ∧ c ≠ '}' ∧ c ≠ '{' :=
      fun c hc => renderParts_lits_good hokT hT hc
    have hAnb : ∀ c ∈ renderParts Ap, c ≠ '{' :=
      fun c hc => (renderParts_lits_good hokA hA hc).2.2
    have hresA : resolvedParts params Ap = renderParts Ap :=
      resolved_eq_render_of_lits params hA
    have hresT : resolvedParts params Tp = renderParts Tp :=
      resolved_eq_render_of_lits params hT
    -- the substituted middle block: value of the first hole, then the rest of
    -- the mixed core
    have hMne : pyQuote v₁.data ++ resolvedParts params mid ≠ [] := by
      intro hnil
      rcases List.append_eq_nil.mp hnil with ⟨h1, _⟩
      exact pyQuote_ne_nil (string_ne_nil_data hv₁ne) h1
    have hMns : ∀ c ∈ pyQuote v₁.data ++ resolvedParts params mid, c ≠ '/' := by
      intro c hc
      rcases List.mem_append.mp hc with h | h
      · exact (pyQuote_good h).1
      · exact (resolvedParts_in_seg hokM h).1
    rcases hm with rfl | ⟨m', nm, rfl⟩
    · -- single hole: core is just the hole itself
      have hform : renderSeg (Ap ++ (SegPart.hole n₁ :: ([] ++ Tp))) ++ rest' =
          renderParts Ap ++ ('{' :: (n₁.data ++ '}' :: (renderParts Tp ++ rest'))) := by
        simp [renderSeg, renderParts, renderSegPart, List.flatMap_append,
          List.flatMap_cons, List.append_assoc]
      have hresform : resolvedSeg params (Ap ++ (SegPart.hole n₁ :: ([] ++ Tp))) ++ restInput =
          renderParts Ap ++ ((pyQuote v₁.data ++ resolvedParts params []) ++
            (renderParts Tp ++ restInput)) := by
        simp only [resolvedSeg, resolvedParts, List.flatMap_append, List.flatMap_cons,
          List.flatMap_nil, List.append_nil, List.nil_append]
        rw [show (Ap.flatMap (resolvedSegPart params)) = resolvedParts params Ap from rfl,
          show (Tp.flatMap (resolvedSegPart params)) = resolvedParts params Tp from rfl,
          hresA, hresT]
        simp only [resolvedSegPart, hv₁]
        simp [List.append_assoc]
      rw [hform, hresform]
      rw [compile_lits _ _ hAnb]
      rw [compile_hole_run n₁.data (renderParts Tp) rest'
        (fun c hc => (holeName_good hok1 hc).1) (string_ne_nil_data hok1.1)
        hTcond hrest']
      exact matchRun_append (matchRun_lits _)
        (matchRun_star hMne hMns (matchRun_append (matchRun_lits _) hmatch))
    · -- several holes: the wildcard swallows everything between the first
      -- placeholder's opening brace and the last one's closing brace
      have hform : renderSeg (Ap ++ (SegPart.hole n₁ :: ((m' ++ [SegPart.hole nm]) ++ Tp))) ++
            rest' =
          renderParts Ap ++ ('{' :: ((n₁.data ++ '}' :: (renderParts m' ++ '{' :: nm.data)) ++
            '}' :: (renderParts Tp ++ rest'))) := by
        simp [renderSeg, renderParts, renderSegPart, List.flatMap_append,
          List.flatMap_cons, List.append_assoc]
      have hresform : resolvedSeg params
            (Ap ++ (SegPart.hole n₁ :: ((m' ++ [SegPart.hole nm]) ++ Tp))) ++ restInput =
          renderParts Ap ++ ((pyQuote v₁.data ++
            resolvedParts params (m' ++ [SegPart.hole nm])) ++
            (renderParts Tp ++ restInput)) := by
        simp only [resolvedSeg, resolvedParts, List.flatMap_append, List.flatMap_cons,
          List.flatMap_nil, List.append_nil, List.nil_append]
        rw [show (Ap.flatMap (resolvedSegPart params)) = resolvedParts params Ap from rfl,
          show (Tp.flatMap (resolvedSegPart params)) = resolvedParts params Tp from rfl,
          hresA, hresT]
        simp only [resolvedSegPart, hv₁]
        simp [List.append_assoc]
      have hQns : ∀ c ∈ n₁.data ++ '}' :: (renderParts m' ++ '{' :: nm.data), c ≠ '/' := by
        intro c hc
        rcases List.mem_append.mp hc with h | h
        · exact (holeName_good hok1 h).1
        · rcases List.mem_cons.mp h with rfl | h
          · decide
          · rcases List.mem_append.mp h with h | h
            · exact (renderParts_in_seg
                (fun q hq => hokM q (List.mem_append_left _ hq)) h).1
            · rcases List.mem_cons.mp h with rfl | h
              · decide
              · have hoknm : (SegPart.hole nm).ok :=
                  hokM _ (List.mem_append_right _ (List.mem_singleton.mpr rfl))
                exact (holeName_good hoknm h).1
      rw [hform, hresform]
      rw [compile_lits _ _ hAnb]
      rw [compile_hole_run _ (renderParts Tp) rest' hQns (by simp)
        hTcond hrest']
      exact matchRun_append (matchRun_lits _)
        (matchRun_star hMne hMns (matchRun_append (matchRun_lits _) hmatch))

theorem matchRun_cons_lit (c d : Char) (i : List Char) (p : List PatElem) :
    matchRun (c :: i) (PatElem.lit d :: p) = ((c = d) && matchRun i p) := rfl

theorem renderTpl_cons (s : List SegPart) (rest : List (List SegPart)) :
    renderTpl (s :: rest) = '/' :: (renderSeg s ++ renderTpl rest) := by
  simp [renderTpl, List.flatMap_cons]

theorem resolvedTpl_cons (params : List (String × String)) (s : List SegPart)
    (rest : List (List SegPart)) :
    resolvedTpl params (s :: rest) = '/' :: (resolvedSeg params s ++ resolvedTpl params rest) := by
  simp [resolvedTpl, List.flatMap_cons]

theorem tpl_pattern_match (params : List (String × String)) (segs : List (List SegPart))
    (hok : ∀ s ∈ segs, ∀ p ∈ s, p.ok)
    (hvals : ∀ s ∈ segs, ∀ p ∈ s, ∀ n, p = SegPart.hole n →
      ∃ v, params.lookup n = some v ∧ v ≠ "") :
    matchRun (resolvedTpl params segs) (compilePattern (renderTpl segs)) = true := by
  induction segs with
  | nil => rfl
  | cons s rest ih =>
      rw [renderTpl_cons, resolvedTpl_cons, compilePattern_cons_eq '/' _ (by decide)]
      have hrest' : renderTpl rest = [] ∨ ∃ r, renderTpl rest = '/' :: r := by
        cases rest with
        | nil => exact Or.inl rfl
        | cons s' r' => exact Or.inr ⟨renderSeg s' ++ renderTpl r', renderTpl_cons s' r'⟩
      have hseg := seg_pattern_match params s (renderTpl rest) (resolvedTpl params rest)
        (hok s (List.mem_cons_self _ _))
        (hvals s (List.mem_cons_self _ _)) hrest'
        (ih (fun t ht => hok t (List.mem_cons_of_mem _ ht))
            (fun t ht => hvals t (List.mem_cons_of_mem _ ht)))
      simpa [matchRun_cons_lit] using hseg

theorem takeWhile_all_eq {p : Char → Bool} {l : List Char}
    (h : ∀ c ∈ l, p c = true) : l.takeWhile p = l := by
  induction l with
  | nil => rfl
  | cons c rest ih =>
      rw [List.takeWhile_cons, h c (List.mem_cons_self _ _)]
      simpa using ih (fun x hx => h x (List.mem_cons_of_mem _ hx))

theorem rstripSlash_concat {l : List Char} {c : Char} (hc : c ≠ '/') :
    rstripSlash (l ++ [c]) = l ++ [c] := by
  unfold rstripSlash
  rw [List.reverse_append]
  simp only [List.reverse_cons, List.reverse_nil, List.nil_append, List.singleton_append]
  rw [List.dropWhile_cons, if_neg (by simpa using hc)]
  simp

theorem normalizePath_eq_self {l' : List Char} {c : Char}
    (h1 : ∀ x ∈ l' ++ [c], x ≠ '?' ∧ x ≠ '#')
    (h2 : (l' ++ [c]).take 2 ≠ ['/', '/'])
    (hc : c ≠ '/') :
    normalizePath (l' ++ [c]) = l' ++ [c] := by
  unfold normalizePath urlsplitPath
  rw [if_neg h2]
  rw [takeWhile_all_eq (fun x hx => by
    obtain ⟨hq, hh⟩ := h1 x hx
    simp [hq, hh])]
  rw [rstripSlash_concat hc]
  simp

theorem renderTpl_append (a b : List (List SegPart)) :
    renderTpl (a ++ b) = renderTpl a ++ renderTpl b := by
  simp [renderTpl, List.flatMap_append]

theorem resolvedTpl_append (params : List (String × String)) (a b : List (List SegPart)) :
    resolvedTpl params (a ++ b) = resolvedTpl params a ++ resolvedTpl params b := by
  simp [resolvedTpl, List.flatMap_append]

theorem renderSeg_append (a b : List SegPart) :
    renderSeg (a ++ b) = renderSeg a ++ renderSeg b := by
  simp [renderSeg, List.flatMap_append]

theorem resolvedSeg_append (params : List (String × String)) (a b : List SegPart) :
    resolvedSeg params (a ++ b) = resolvedSeg params a ++ resolvedSeg params b := by
  simp [resolvedSeg, List.flatMap_append]

theorem renderTpl_last (segs : List (List SegPart)) (hne : segs ≠ [])
    (hok : ∀ s ∈ segs, s ≠ [] ∧ ∀ p ∈ s, p.ok) :
    ∃ l' c, renderTpl segs = l' ++ [c] ∧ c ≠ '/' := by
  obtain ⟨init, s, rfl⟩ : ∃ init s, segs = init ++ [s] := by
    refine ⟨segs.dropLast, segs.getLast hne, ?_⟩
    rw [List.dropLast_append_getLast hne]
  have hs := hok s (List.mem_append_right _ (List.mem_singleton.mpr rfl))
  obtain ⟨init', q, rfl⟩ : ∃ init' q, s = init' ++ [q] := by
    refine ⟨s.dropLast, s.getLast hs.1, ?_⟩
    rw [List.dropLast_append_getLast hs.1]
  have hq : q.ok := hs.2 q (List.mem_append_right _ (List.mem_singleton.mpr rfl))
  rw [renderTpl_append]
  cases q with
  | lit d =>
      refine ⟨renderTpl init ++ ('/' :: renderSeg init'), d, ?_, (safeLit_good hq).1⟩
      rw [renderTpl_cons]
      simp [renderSeg_append, renderSeg, renderSegPart, renderTpl, List.append_assoc]
  | hole n =>
      refine ⟨renderTpl init ++ ('/' :: (renderSeg init' ++ ('{' :: n.data))), '}', ?_,
        by decide⟩
      rw [renderTpl_cons]
      simp [renderSeg_append, renderSeg, renderSegPart, renderTpl, List.append_assoc]

theorem resolvedTpl_last (params : List (String × String)) (segs : List (List SegPart))
    (hne : segs ≠ [])
    (hok : ∀ s ∈ segs, s ≠ [] ∧ ∀ p ∈ s, p.ok)
    (hvals : ∀ s ∈ segs, ∀ p ∈ s, ∀ n, p = SegPart.hole n →
      ∃ v, params.lookup n = some v ∧ v ≠ "") :
    ∃ l' c, resolvedTpl params segs = l' ++ [c] ∧ c ≠ '/' := by
  obtain ⟨init, s, rfl⟩ : ∃ init s, segs = init ++ [s] := by
    refine ⟨segs.dropLast, segs.getLast hne, ?_⟩
    rw [List.dropLast_append_getLast hne]
  have hsmem : s ∈ init ++ [s] := List.mem_append_right _ (List.mem_singleton.mpr rfl)
  have hs := hok s hsmem
  obtain ⟨init', q, rfl⟩ : ∃ init' q, s = init' ++ [q] := by
    refine ⟨s.dropLast, s.getLast hs.1, ?_⟩
    rw [List.dropLast_append_getLast hs.1]
  have hqmem : q ∈ init' ++ [q] := List.mem_append_right _ (List.mem_singleton.mpr rfl)
  have hq : q.ok := hs.2 q hqmem
  rw [resolvedTpl_append]
  cases q with
  | lit d =>
      refine ⟨resolvedTpl params init ++ ('/' :: resolvedSeg params init'), d, ?_,
        (safeLit_good hq).1⟩
      rw [resolvedTpl_cons]
      simp [resolvedSeg_append, resolvedSeg, resolvedSegPart, resolvedTpl, List.append_assoc]
  | hole n =>
      obtain ⟨v, hv, hvne⟩ := hvals _ hsmem _ hqmem n rfl
      have hqne : pyQuote v.data ≠ [] := pyQuote_ne_nil (string_ne_nil_data hvne)
      obtain ⟨q', qc, hqeq⟩ : ∃ q' qc, pyQuote v.data = q' ++ [qc] := by
        refine ⟨(pyQuote v.data).dropLast, (pyQuote v.data).getLast hqne, ?_⟩
        rw [List.dropLast_append_getLast hqne]
      have hqcmem : qc ∈ pyQuote v.data := by
        rw [hqeq]
        exact List.mem_append_right _ (List.mem_singleton.mpr rfl)
      refine ⟨resolvedTpl params init ++ ('/' :: (resolvedSeg params init' ++ q')), qc, ?_,
        (pyQuote_good hqcmem).1⟩
      rw [resolvedTpl_cons, resolvedSeg_append]
      have h1 : resolvedSeg params [SegPart.hole n] = q' ++ [qc] := by
        simp only [resolvedSeg, List.flatMap_cons, List.flatMap_nil, List.append_nil,
          resolvedSegPart, hv, Option.getD_some]
        exact hqeq
      rw [h1]
      simp [resolvedTpl, List.append_assoc]

theorem renderTpl_no_qf {segs : List (List SegPart)}
    (hok : ∀ s ∈ segs, ∀ p ∈ s, p.ok) :
    ∀ c ∈ renderTpl segs, c ≠ '?' ∧ c ≠ '#' := by
  intro c hc
  obtain ⟨s, hs, hcs⟩ := List.mem_flatMap.mp hc
  rcases List.mem_cons.mp hcs with rfl | h
  · exact ⟨by decide, by decide⟩
  · obtain ⟨_, h4, h5⟩ := renderParts_in_seg (hok s hs) h
    exact ⟨h4, h5⟩

theorem resolvedTpl_no_qf {params : List (String × String)} {segs : List (List SegPart)}
    (hok : ∀ s ∈ segs, ∀ p ∈ s, p.ok) :
    ∀ c ∈ resolvedTpl params segs, c ≠ '?' ∧ c ≠ '#' := by
  intro c hc
  obtain ⟨s, hs, hcs⟩ := List.mem_flatMap.mp hc
  rcases List.mem_cons.mp hcs with rfl | h
  · exact ⟨by decide, by decide⟩
  · obtain ⟨_, h4, h5⟩ := resolvedParts_in_seg (hok s hs) h
    exact ⟨h4, h5⟩

theorem renderSegPart_ne_nil (p : SegPart) : renderSegPart p ≠ [] := by
  cases p <;> simp [renderSegPart]

theorem take2_render {segs : List (List SegPart)}
    (hsegs : ∀ s ∈ segs, s ≠ [] ∧ ∀ p ∈ s, p.ok) :
    (renderTpl segs).take 2 ≠ ['/', '/'] := by
  cases segs with
  | nil => simp [renderTpl]
  | cons s rest =>
      rw [renderTpl_cons]
      obtain ⟨hne, hok⟩ := hsegs s (List.mem_cons_self _ _)
      cases hs : s with
      | nil => exact absurd hs hne
      | cons p ps =>
          have hrne : renderSegPart p ≠ [] := renderSegPart_ne_nil p
          cases hr : renderSegPart p with
          | nil => exact absurd hr hrne
          | cons z zs =>
              have hz : z ∈ renderSegPart p := by rw [hr]; exact List.mem_cons_self _ _
              have hzs : z ≠ '/' :=
                (renderSegPart_in_seg (hok p (hs ▸ List.mem_cons_self _ _)) hz).1
              have : renderSeg (p :: ps) ++ renderTpl rest =
                  z :: (zs ++ ((renderSeg ps) ++ renderTpl rest)) := by
                rw [show renderSeg (p :: ps) = renderSegPart p ++ renderSeg ps from by
                  simp [renderSeg, List.flatMap_cons], hr]
                simp [List.append_assoc]
              rw [this]
              intro hcontra
              simp only [List.take, List.cons.injEq] at hcontra
              exact hzs hcontra.2.1

theorem resolvedSegPart_ne_nil {params : List (String × String)} {p : SegPart}
    (hval : ∀ n, p = SegPart.hole n → ∃ v, params.lookup n = some v ∧ v ≠ "") :
    resolvedSegPart params p ≠ [] := by
  cases p with
  | lit c => simp [resolvedSegPart]
  | hole n =>
      obtain ⟨v, hv, hvne⟩ := hval n rfl
      simp only [resolvedSegPart, hv, Option.getD_some]
      exact pyQuote_ne_nil (string_ne_nil_data hvne)

theorem take2_resolved {params : List (String × String)} {segs : List (List SegPart)}
    (hsegs : ∀ s ∈ segs, s ≠ [] ∧ ∀ p ∈ s, p.ok)
    (hvals : ∀ s ∈ segs, ∀ p ∈ s, ∀ n, p = SegPart.hole n →
      ∃ v, params.lookup n = some v ∧ v ≠ "") :
    (resolvedTpl params segs).take 2 ≠ ['/', '/'] := by
  cases segs with
  | nil => simp [resolvedTpl]
  | cons s rest =>
      rw [resolvedTpl_cons]
      obtain ⟨hne, hok⟩ := hsegs s (List.mem_cons_self _ _)
      cases hs : s with
      | nil => exact absurd hs hne
      | cons p ps =>
          have hpmem : p ∈ s := hs ▸ List.mem_cons_self _ _
          have hrne : resolvedSegPart params p ≠ [] :=
            resolvedSegPart_ne_nil (fun n hn => hvals s (List.mem_cons_self _ _) p hpmem n hn)
          cases hr : resolvedSegPart params p with
          | nil => exact absurd hr hrne
          | cons z zs =>
              have hz : z ∈ resolvedSegPart params p := by rw [hr]; exact List.mem_cons_self _ _
              have hzs : z ≠ '/' := (resolvedSegPart_in_seg (hok p hpmem) hz).1
              have : resolvedSeg params (p :: ps) ++ resolvedTpl params rest =
                  z :: (zs ++ ((resolvedSeg params ps) ++ resolvedTpl params rest)) := by
                rw [show resolvedSeg params (p :: ps) =
                    resolvedSegPart params p ++ resolvedSeg params ps from by
                  simp [resolvedSeg, List.flatMap_cons], hr]
                simp [List.append_assoc]
              rw [this]
              intro hcontra
              simp only [List.take, List.cons.injEq] at hcontra
              exact hzs hcontra.2.1

theorem normalize_renderTpl {segs : List (List SegPart)}
    (hsegs : segs ≠ []) (hok : ∀ s ∈ segs, s ≠ [] ∧ ∀ p ∈ s, p.ok) :
    normalizePath (renderTpl segs) = renderTpl segs := by
  obtain ⟨l', c, heq, hc⟩ := renderTpl_last segs hsegs hok
  rw [heq]
  exact normalizePath_eq_self
    (fun x hx => renderTpl_no_qf (fun s hs => (hok s hs).2) x (heq ▸ hx))
    (heq ▸ take2_render hok) hc

theorem normalize_resolvedTpl {params : List (String × String)} {segs : List (List SegPart)}
    (hsegs : segs ≠ []) (hok : ∀ s ∈ segs, s ≠ [] ∧ ∀ p ∈ s, p.ok)
    (hvals : ∀ s ∈ segs, ∀ p ∈ s, ∀ n, p = SegPart.hole n →
      ∃ v, params.lookup n = some v ∧ v ≠ "") :
    normalizePath (resolvedTpl params segs) = resolvedTpl params segs := by
  obtain ⟨l', c, heq, hc⟩ := resolvedTpl_last params segs hsegs hok hvals
  rw [heq]
  exact normalizePath_eq_self
    (fun x hx => resolvedTpl_no_qf (fun s hs => (hok s hs).2) x (heq ▸ hx))
    (heq ▸ take2_resolved hok hvals) hc

theorem flatten_resolvable {params : List (String × String)} {segs : List (List SegPart)}
    (hok : ∀ s ∈ segs, ∀ p ∈ s, p.ok)
    (hvals : ∀ s ∈ segs, ∀ p ∈ s, ∀ n, p = SegPart.hole n →
      ∃ v, params.lookup n = some v ∧ v ≠ "") :
    ∀ p ∈ flattenTpl segs, resolvablePart params p := by
  intro p hp
  obtain ⟨s, hs, hps⟩ := List.mem_flatMap.mp hp
  rcases List.mem_cons.mp hps with rfl | hps
  · exact (by decide : ('/' : Char) ≠ '{')
  · cases p with
    | lit c => exact (safeLit_good (hok s hs _ hps)).2.1
    | hole n =>
        have hnok : holeNameOk n := hok s hs _ hps
        obtain ⟨v, hv, _⟩ := hvals s hs _ hps n rfl
        exact ⟨string_ne_nil_data hnok.1, fun c hc => (hnok.2 c hc).2.2.1,
          by rw [hv]; rfl⟩

/-- C2 (amended).  The claim as stated fails for empty placeholder values
(see the counterexample); with every placeholder of a well-formed template
assigned a **nonempty** value, resolution substitutes the percent-encoded
values, the resolved path passes the Endpoint Matcher for the endpoint's
method, and a call whose method differs from every endpoint matching its
path always fails the matcher. -/
theorem c2_endpoint_matcher :
    (∀ (params : List (String × String)) (segs : List (List SegPart)),
      tplOk segs → paramsOk params segs →
      (resolveEndpoint params (String.mk (renderTpl segs)) =
         some (String.mk (resolvedTpl params segs)) ∧
       pathsMatch (String.mk (resolvedTpl params segs)) (String.mk (renderTpl segs)) = true ∧
       (∀ (eps : List ExampleEndpoint) (ep : ExampleEndpoint) (m : String),
          ep ∈ eps → ep.path = String.mk (renderTpl segs) → ep.method = m →
          (validateEndpoint eps (String.mk (resolvedTpl params segs)) m).isSome = true) ∧
       (∀ (nm : String) (d : Option String) (aq ab : Option (List String)) (m : String),
          validateEndpoint [⟨nm, String.mk (renderTpl segs), m, d, aq, ab⟩]
            (String.mk (resolvedTpl params segs)) m =
            some ⟨nm, String.mk (renderTpl segs), m, d, aq, ab⟩))) ∧
    (∀ (eps : List ExampleEndpoint) (callPath m : String),
       (∀ ep ∈ eps, pathsMatch callPath ep.path = true → ep.method ≠ m) →
       validateEndpoint eps callPath m = none) := by
  constructor
  · intro params segs htpl hparams
    have hok : ∀ s ∈ segs, ∀ p ∈ s, p.ok := fun s hs => (htpl.2 s hs).2
    have hsegne : ∀ s ∈ segs, s ≠ [] ∧ ∀ p ∈ s, p.ok := htpl.2
    have hmatch : pathsMatch (String.mk (resolvedTpl params segs))
        (String.mk (renderTpl segs)) = true := by
      unfold pathsMatch
      rw [show (String.mk (resolvedTpl params segs)).data = resolvedTpl params segs from rfl,
        show (String.mk (renderTpl segs)).data = renderTpl segs from rfl]
      rw [normalize_resolvedTpl htpl.1 hsegne hparams, normalize_renderTpl htpl.1 hsegne]
      exact tpl_pattern_match params segs hok hparams
    refine ⟨?_, hmatch, ?_, ?_⟩
    · unfold resolveEndpoint
      rw [show (String.mk (renderTpl segs)).data = renderTpl segs from rfl,
        renderTpl_eq_parts, resolvedTpl_eq_parts,
        resolveAux_renderParts params _ (flatten_resolvable hok hparams)]
      rfl
    · intro eps ep m hmem hpath hmeth
      rw [validateEndpoint]
      rw [List.find?_isSome]
      refine ⟨ep, hmem, ?_⟩
      rw [hpath, hmeth, hmatch]
      simp
    · intro nm d aq ab m
      rw [validateEndpoint]
      rw [List.find?_cons_of_pos]
      rw [hmatch]
      simp
  · intro eps callPath m hno
    rw [validateEndpoint, List.find?_eq_none]
    intro ep hmem
    intro hpred
    rw [Bool.and_eq_true] at hpred
    exact hno ep hmem hpred.1 (by simpa using hpred.2)

/-- C2 counterexample: with the empty string as the `id` value, the resolved
path `/users/` no longer matches the `/users/\x7bid\x7d` pattern (the compiled
`[^/]+` needs at least one character), so validation finds no endpoint. -/
theorem c2_counterexample :
    resolveEndpoint [("id", "")] "/users/\x7bid\x7d" = some "/users/" ∧
    pathsMatch "/users/" "/users/\x7bid\x7d" = false ∧
    validateEndpoint [epUser] "/users/" "GET" = none :=
  ⟨rfl, rfl, rfl⟩

theorem c2_witness :
    String.mk (resolvedTpl [("id", "4 2")] [[SegPart.lit 'u'], [SegPart.hole "id"]]) =
      "/u/4%202" ∧
    resolveEndpoint [("id", "4 2")]
      (String.mk (renderTpl [[SegPart.lit 'u'], [SegPart.hole "id"]])) =
      some (String.mk (resolvedTpl [("id", "4 2")] [[SegPart.lit 'u'], [SegPart.hole "id"]])) ∧
    validateEndpoint [⟨"get-u", String.mk (renderTpl [[SegPart.lit 'u'], [SegPart.hole "id"]]),
        "GET", none, none, none⟩]
      (String.mk (resolvedTpl [("id", "4 2")] [[SegPart.lit 'u'], [SegPart.hole "id"]])) "GET" =
      some ⟨"get-u", String.mk (renderTpl [[SegPart.lit 'u'], [SegPart.hole "id"]]),
        "GET", none, none, none⟩ ∧
    validateEndpoint [epUser] "/users/7" "POST" = none := by
  have htpl : tplOk [[SegPart.lit 'u'], [SegPart.hole "id"]] := by
    refine ⟨by simp, ?_⟩
    intro s hs
    rcases List.mem_cons.mp hs with rfl | hs
    · refine ⟨by simp, ?_⟩
      intro p hp
      rcases List.mem_cons.mp hp with rfl | hp
      · exact Or.inl (by decide)
      · simp at hp
    · rcases List.mem_cons.mp hs with rfl | hs
      · refine ⟨by simp, ?_⟩
        intro p hp
        rcases List.mem_cons.mp hp with rfl | hp
        · exact ⟨by decide, by decide⟩
        · simp at hp
      · simp at hs
  have hparams : paramsOk [("id", "4 2")] [[SegPart.lit 'u'], [SegPart.hole "id"]] := by
    intro s hs p hp n hn
    exact ⟨"4 2", by
      subst hn
      rcases List.mem_cons.mp hs with rfl | hs
      · rcases List.mem_cons.mp hp with h | hp
        · exact absurd h (by simp)
        · simp at hp
      · rcases List.mem_cons.mp hs with rfl | hs
        · rcases List.mem_cons.mp hp with h | hp
          · rw [show n = "id" from by injection h]; rfl
          · simp at hp
        · simp at hs, by decide⟩
  have hmain := (c2_endpoint_matcher.1 [("id", "4 2")]
    [[SegPart.lit 'u'], [SegPart.hole "id"]] htpl hparams)
  refine ⟨rfl, hmain.1, ?_, ?_⟩
  · exact hmain.2.2.2 "get-u" none none none "GET"
  · refine c2_endpoint_matcher.2 [epUser] "/users/7" "POST" ?_
    intro ep hmem hm
    rcases List.mem_cons.mp hmem with rfl | hmem
    · decide
    · simp at hmem
